import Mathlib

/-!
# punch: expression tree and recursive visitor

A shallow embedding of `libpunch/include/lang/reader_expressions.hpp` and
`libpunch/include/lang/visitors.hpp`.

Conventions of the embedding.

* A `std::list<UExpression>` is a `List Expression`.  An iterator into it is the
  suffix of the list that starts at the iterator: `it != end()` is "the suffix is
  not empty", `*it` is the head of the suffix, `++it` is its tail.  Dereferencing
  `end()` is undefined behaviour in C++; the embedding stops the run there with the
  outcome `pastEnd`.
* The nesting counter `level` is a C++ `int`.  Its overflow is undefined behaviour,
  so the counter is taken in `Int`; every statement below is about runs in which
  the counter stays in range.
* A concrete visitor (`Derived`) is a table of hooks over its own state `σ`.  The
  hooks may read `level`; hooks that write it are outside the embedding.
-/

namespace punch.lang

/-! ## Expression model -/

/-- Modelled from the spec: the enum `ExpressionType` is declared in
`lang/expression.hpp`, which is not part of the sources at hand; the spec lists
its closed set of eleven kinds. -/
inductive ExpressionType where
  | Keyword | Integer | Float | Ratio | Literal | Symbol
  | Symbolic | Map | Set | String | Vector
  deriving DecidableEq, Repr

/-- Storage of a C++ `double`: its 64-bit pattern.  Nothing below computes with it. -/
abbrev Double : Type := Nat

/-- The node classes of `reader_expressions.hpp`, one constructor per class, with
the data members of the class as fields.  `Symbol` is only forward-declared in
`visitors.hpp` (its class lives in a header outside the sources at hand); the
spec gives its payload as "atomic identifier text". -/
inductive Expression where
  | Keyword (value : String)
  | Integer (value : Int)
  | Float (value : Double)
  | Ratio (numerator denominator : Int)
  | Literal (value : String)
  | Symbol (value : String)
  | Symbolic (inner : List Expression)
  | Map (inner : List Expression)
  | Set (inner : List Expression)
  | String (value : String)
  | Vector (inner : List Expression)

/-- The overrides `ExpressionType type() const` of the node classes. -/
def Expression.type : Expression → ExpressionType
  | .Keyword _ => .Keyword
  | .Integer _ => .Integer
  | .Float _ => .Float
  | .Ratio _ _ => .Ratio
  | .Literal _ => .Literal
  | .Symbol _ => .Symbol
  | .Symbolic _ => .Symbolic
  | .Map _ => .Map
  | .Set _ => .Set
  | .String _ => .String
  | .Vector _ => .Vector

/-- Constructor `Map(std::list<UExpression> &inner) : inner(std::move(inner)) { }`:
the list is moved into the node, nothing is checked. -/
def Map.new (inner : List Expression) : Expression := .Map inner

/-- Modelled from the spec: `get_inner()` is declared for `Symbolic`, `Map`, `Set`
and `Vector` but its body is in a source file outside the sources at hand; the
spec has it return the ordered sequence of child expressions of the node.  The other
classes have no such member (`none`). -/
def Expression.get_inner : Expression → Option (List Expression)
  | .Symbolic inner => some inner
  | .Map inner => some inner
  | .Set inner => some inner
  | .Vector inner => some inner
  | _ => none

/-! ## Visitor interface -/

/-- The two hook families of `ExpressionVisitor`. -/
inductive Hook where
  | before | after
  deriving DecidableEq, Repr

/-- The ten classes for which `ExpressionVisitor` declares an overload of `before`
and of `after` (`visitors.hpp`, lines 46 to 74). -/
inductive Overload where
  | Keyword | Integer | Float | Ratio | Symbol
  | Symbolic | Map | Set | String | Vector
  deriving DecidableEq, Repr

/-- The kind of node an overload takes. -/
def Overload.type : Overload → ExpressionType
  | .Keyword => .Keyword
  | .Integer => .Integer
  | .Float => .Float
  | .Ratio => .Ratio
  | .Symbol => .Symbol
  | .Symbolic => .Symbolic
  | .Map => .Map
  | .Set => .Set
  | .String => .String
  | .Vector => .Vector

/-- The hook table of a concrete visitor with state `σ`: `before o e lvl` is the
overload `before(o const &)` run on node `e` while the counter `level` holds
`lvl`. -/
structure ExpressionVisitor (σ : Type) where
  before : Overload → Expression → Int → σ → σ
  after : Overload → Expression → Int → σ → σ

/-- The defaults of `ExpressionVisitor`: every hook has the empty body. -/
def ExpressionVisitor.default (σ : Type) : ExpressionVisitor σ where
  before := fun _ _ _ st => st
  after := fun _ _ _ st => st

/-- The object `RecursiveVisitor<Derived>`: the counter `level` and the members
of `Derived`. -/
structure RecursiveVisitor (σ : Type) where
  level : Int
  derived : σ

/-- Constructor `RecursiveVisitor(int starting_level) : level(starting_level)`. -/
def RecursiveVisitor.new {σ : Type} (starting_level : Int) (derived : σ) :
    RecursiveVisitor σ :=
  ⟨starting_level, derived⟩

/-- How a run of the engine ends: it returns, or it dereferences an `end()`
iterator (undefined behaviour); either way with the state reached so far. -/
inductive Outcome (σ : Type) where
  | completed (s : RecursiveVisitor σ)
  | pastEnd (s : RecursiveVisitor σ)

/-- The state a run has reached. -/
def Outcome.state {σ : Type} : Outcome σ → RecursiveVisitor σ
  | .completed s => s
  | .pastEnd s => s

/-- Whether the run returned. -/
def Outcome.isCompleted {σ : Type} : Outcome σ → Bool
  | .completed _ => true
  | .pastEnd _ => false

/-- Sequencing of statements: what follows a statement runs only if the statement
returned. -/
def Outcome.andThen {σ : Type} (r : Outcome σ) (k : RecursiveVisitor σ → Outcome σ) :
    Outcome σ :=
  match r with
  | .completed s => k s
  | .pastEnd s => .pastEnd s

/-- Statement `level++`. -/
def RecursiveVisitor.incr {σ : Type} (s : RecursiveVisitor σ) : RecursiveVisitor σ :=
  { s with level := s.level + 1 }

/-- Statement `level--`. -/
def RecursiveVisitor.decr {σ : Type} (s : RecursiveVisitor σ) : RecursiveVisitor σ :=
  { s with level := s.level - 1 }

/-- Statement `derived()->before(*expr)` with `expr` cast to class `o`. -/
def RecursiveVisitor.before {σ : Type} (d : ExpressionVisitor σ) (o : Overload)
    (e : Expression) (s : RecursiveVisitor σ) : RecursiveVisitor σ :=
  { s with derived := d.before o e s.level s.derived }

/-- Statement `derived()->after(*expr)` with `expr` cast to class `o`. -/
def RecursiveVisitor.after {σ : Type} (d : ExpressionVisitor σ) (o : Overload)
    (e : Expression) (s : RecursiveVisitor σ) : RecursiveVisitor σ :=
  { s with derived := d.after o e s.level s.derived }

/-! ## The recursive engine -/

mutual
/-- Member `RecursiveVisitor::handle_expression`: the chain of tests on
`expression->type()`, one arm per branch.  A `Literal` node matches no branch. -/
def RecursiveVisitor.handle_expression {σ : Type} (d : ExpressionVisitor σ) :
    Expression → RecursiveVisitor σ → Outcome σ
  | .Keyword value, s =>
      .completed ((s.before d .Keyword (.Keyword value)).after d .Keyword (.Keyword value))
  | .Integer value, s =>
      .completed ((s.before d .Integer (.Integer value)).after d .Integer (.Integer value))
  | .Float value, s =>
      .completed ((s.before d .Float (.Float value)).after d .Float (.Float value))
  | .Ratio n m, s =>
      .completed ((s.before d .Ratio (.Ratio n m)).after d .Ratio (.Ratio n m))
  | .Symbol value, s =>
      .completed ((s.before d .Symbol (.Symbol value)).after d .Symbol (.Symbol value))
  | .Symbolic inner, s =>
      (RecursiveVisitor.for_each d inner
          (s.incr.before d .Symbolic (.Symbolic inner))).andThen fun s1 =>
        .completed (s1.after d .Symbolic (.Symbolic inner)).decr
  | .Map inner, s =>
      (RecursiveVisitor.map_loop d inner
          (s.incr.before d .Map (.Map inner))).andThen fun s1 =>
        .completed (s1.after d .Map (.Map inner)).decr
  | .Set inner, s =>
      (RecursiveVisitor.for_each d inner
          (s.incr.before d .Set (.Set inner))).andThen fun s1 =>
        .completed (s1.after d .Set (.Set inner)).decr
  | .String value, s =>
      .completed ((s.before d .String (.String value)).after d .String (.String value))
  | .Vector inner, s =>
      (RecursiveVisitor.for_each d inner
          (s.incr.before d .Vector (.Vector inner))).andThen fun s1 =>
        .completed (s1.after d .Vector (.Vector inner)).decr
  | .Literal _, s => .completed s
/-- The loop `for (auto it = inner->begin(); it != inner->end(); ++it)
(*it)->accept(*this);` of the `Symbolic`, `Set` and `Vector` branches, from the
iterator position given by the suffix.  `(*it)->accept(*this)` hands the address
of the child, which is never null, to `visit`, hence to `handle_expression`. -/
def RecursiveVisitor.for_each {σ : Type} (d : ExpressionVisitor σ) :
    List Expression → RecursiveVisitor σ → Outcome σ
  | [], s => .completed s
  | x :: rest, s =>
      (RecursiveVisitor.handle_expression d x s).andThen fun s1 =>
        RecursiveVisitor.for_each d rest s1
/-- The loop of the `Map` branch,
`while (it != inner->end()) { (*it)->accept(*this); ++it; (*it)->accept(*this); }`,
from the iterator position given by the suffix.  The body advances the iterator
once: the second `accept` is on the element after the first, and the loop test
then sees the iterator on that same element. -/
def RecursiveVisitor.map_loop {σ : Type} (d : ExpressionVisitor σ) :
    List Expression → RecursiveVisitor σ → Outcome σ
  | [], s => .completed s
  | x :: rest, s =>
      (RecursiveVisitor.handle_expression d x s).andThen fun s1 =>
        match rest with
        | [] => .pastEnd s1
        | y :: rest2 =>
            (RecursiveVisitor.handle_expression d y s1).andThen fun s2 =>
              RecursiveVisitor.map_loop d (y :: rest2) s2
end

/-- Member `RecursiveVisitor::visit(Expression const * expression)`; a null pointer is
`none`. -/
def RecursiveVisitor.visit {σ : Type} (d : ExpressionVisitor σ) :
    Option Expression → RecursiveVisitor σ → Outcome σ
  | none, s => .completed s
  | some expression, s => RecursiveVisitor.handle_expression d expression s

/-- Modelled from the spec: the bodies of `accept(ExpressionVisitor &)` are in a
source file outside the sources at hand; the spec has `accept` dispatch to the
entry point `visit` of the visitor, passing the address of the node. -/
def Expression.accept {σ : Type} (d : ExpressionVisitor σ) (e : Expression)
    (s : RecursiveVisitor σ) : Outcome σ :=
  RecursiveVisitor.visit d (some e) s

/-! ## Observing a traversal -/

/-- One hook call: which family, which overload, on which node, and the value of
`level` while the hook runs. -/
structure Event where
  hook : Hook
  overload : Overload
  node : Expression
  level : Int

/-- The visitor whose hooks only write down that they were called. -/
def Recorder : ExpressionVisitor (List Event) where
  before := fun o e lvl log => log ++ [⟨.before, o, e, lvl⟩]
  after := fun o e lvl log => log ++ [⟨.after, o, e, lvl⟩]

/-- The hook trace of `visit(&e)` started with `level == startLevel`: the hook
calls made, in order, until the run ends. -/
def hookTrace (e : Expression) (startLevel : Int) : List Event :=
  (RecursiveVisitor.visit Recorder (some e) ⟨startLevel, []⟩).state.derived

/-- Running one recorded hook call on a visitor. -/
def Event.run {σ : Type} (d : ExpressionVisitor σ) (st : σ) (ev : Event) : σ :=
  match ev.hook with
  | .before => d.before ev.overload ev.node ev.level st
  | .after => d.after ev.overload ev.node ev.level st

/-- Running a recorded sequence of hook calls on a visitor. -/
def replay {σ : Type} (d : ExpressionVisitor σ) (log : List Event) (st : σ) : σ :=
  log.foldl (Event.run d) st

/-- The outcome of the same kind and level, with the recorded calls replayed on
another visitor. -/
def Outcome.replayOn {σ : Type} (d : ExpressionVisitor σ) (st : σ) :
    Outcome (List Event) → Outcome σ
  | .completed s => .completed ⟨s.level, replay d s.derived st⟩
  | .pastEnd s => .pastEnd ⟨s.level, replay d s.derived st⟩

mutual
/-- Every `Map` node of the tree has an empty child sequence. -/
def Expression.mapsEmpty : Expression → Bool
  | .Symbolic inner => allMapsEmpty inner
  | .Map [] => true
  | .Map (_ :: _) => false
  | .Set inner => allMapsEmpty inner
  | .Vector inner => allMapsEmpty inner
  | _ => true
/-- Every `Map` node of every tree of the list has an empty child sequence. -/
def allMapsEmpty : List Expression → Bool
  | [] => true
  | x :: rest => x.mapsEmpty && allMapsEmpty rest
end

/-- Spec side, "visit every child in sequence order": `accept` on each child,
first to last, each once; a child whose traversal does not return ends the run. -/
def acceptEach {σ : Type} (d : ExpressionVisitor σ) (children : List Expression)
    (s : RecursiveVisitor σ) : Outcome σ :=
  children.foldl (fun r c => r.andThen (Expression.accept d c)) (.completed s)

mutual
/-- The tree is made of `Vector` nodes only. -/
def Expression.isVectorTree : Expression → Bool
  | .Vector inner => allVectorTrees inner
  | _ => false
/-- Every tree of the list is made of `Vector` nodes only. -/
def allVectorTrees : List Expression → Bool
  | [] => true
  | x :: rest => x.isVectorTree && allVectorTrees rest
end

mutual
/-- The number of nodes of the tree. -/
def Expression.nodes : Expression → Nat
  | .Symbolic inner => 1 + nodesOf inner
  | .Map inner => 1 + nodesOf inner
  | .Set inner => 1 + nodesOf inner
  | .Vector inner => 1 + nodesOf inner
  | _ => 1
/-- The number of nodes of the trees of the list. -/
def nodesOf : List Expression → Nat
  | [] => 0
  | x :: rest => x.nodes + nodesOf rest
end

mutual
/-- Spec side, for a tree of `Vector` nodes entered with the counter at `lvl`:
the pairing of hook calls in depth-first, left-to-right order, `before` on the
node, then the pairings of its children first to last, then `after` on the
node, each node at one level more than its parent. -/
def dfsPairing (lvl : Int) : Expression → List Event
  | .Vector inner =>
      ⟨.before, .Vector, .Vector inner, lvl + 1⟩
        :: (dfsPairingList (lvl + 1) inner ++ [⟨.after, .Vector, .Vector inner, lvl + 1⟩])
  | _ => []
/-- Spec side: the pairings of the trees of the list, first to last. -/
def dfsPairingList (lvl : Int) : List Expression → List Event
  | [] => []
  | x :: rest => dfsPairing lvl x ++ dfsPairingList lvl rest
end

/-- The number of calls of the given hook family in a log. -/
def countHook (h : Hook) (log : List Event) : Nat :=
  log.countP fun ev => ev.hook = h

/-! ## The diagnostic printer -/

/-- The data members of `LoggingVisitor`: the flag `no_space` and the characters
written to `os` so far. -/
structure LoggingVisitor where
  no_space : Bool
  os : String

/-- Member `LoggingVisitor::print(std::string s)`, run while the counter holds `level`;
`std::endl` writes a line break. -/
def LoggingVisitor.print (s : String) (level : Int) (v : LoggingVisitor) : LoggingVisitor :=
  let os1 := if !v.no_space then v.os ++ " " else v.os
  let no_space1 := if v.no_space then false else v.no_space
  let os2 := os1 ++ s
  let os3 := if level == 0 then os2 ++ "\n" else os2
  ⟨no_space1, os3⟩

/-- Modelled from the spec: the bodies of the overriding hooks of
`LoggingVisitor` are in a source file outside the sources at hand.  A rendering
says what such a body does: the text it hands to `print`, and whether it sets
`no_space` afterwards. -/
structure Rendering where
  text : Hook → Expression → String
  suppress : Hook → Expression → Bool

/-- Modelled from the spec: an overriding hook of `LoggingVisitor` run on node
`e`; it writes through `print`. -/
def LoggingVisitor.hook (r : Rendering) (h : Hook) (e : Expression) (level : Int)
    (v : LoggingVisitor) : LoggingVisitor :=
  let v1 := LoggingVisitor.print (r.text h e) level v
  if r.suppress h e then { v1 with no_space := true } else v1

/-- Modelled from the spec: the hooks of `LoggingVisitor` are declared in
`visitors.hpp` but their bodies are in a source file outside the sources at
hand.  The class overrides `before` for all ten classes and `after` for
`Symbolic`, `Map`, `Set` and `Vector`; the other six `after` hooks keep the empty
default.  The spec has each atomic kind print its value and each recursive kind
print an opening marker in `before` and a closing marker in `after`; the texts
and the use of `no_space` are left to the parameter `r`. -/
def LoggingVisitor.hooks (r : Rendering) : ExpressionVisitor LoggingVisitor where
  before := fun _ e level v => LoggingVisitor.hook r .before e level v
  after := fun o e level v =>
    match o with
    | .Symbolic => LoggingVisitor.hook r .after e level v
    | .Map => LoggingVisitor.hook r .after e level v
    | .Set => LoggingVisitor.hook r .after e level v
    | .Vector => LoggingVisitor.hook r .after e level v
    | _ => v

/-- A rendering with brackets for `Vector`, a colon before the name of a
`Keyword`, and the digits of an `Integer`; no hook sets `no_space`. -/
def sampleRendering : Rendering where
  text := fun h e =>
    match h, e with
    | .before, .Vector _ => "["
    | .after, .Vector _ => "]"
    | .before, .Keyword value => ":" ++ value
    | .before, .Integer value => toString value
    | _, _ => ""
  suppress := fun _ _ => false

/-! ## Further members and spec-side notions -/

/-- Constructor `Ratio(long n, long d) : numerator(n), denominator(d) { }`: the two
arguments are stored as given, nothing is checked or reduced. -/
def Ratio.new (n d : Int) : Expression := .Ratio n d

/-- Data member `numerator` of class `Ratio`; the other classes have no such
member (`none`). -/
def Expression.numerator : Expression → Option Int
  | .Ratio n _ => some n
  | _ => none

/-- Data member `denominator` of class `Ratio`; the other classes have no such
member (`none`). -/
def Expression.denominator : Expression → Option Int
  | .Ratio _ d => some d
  | _ => none

/-- The recursive kinds: `Symbolic`, `Map`, `Set` and `Vector`. -/
def Expression.isRecursive : Expression → Bool
  | .Symbolic _ => true
  | .Map _ => true
  | .Set _ => true
  | .Vector _ => true
  | _ => false

mutual
/-- Spec side, the well-formed trees: every `Map` node of the tree has an even
number of children. -/
def Expression.mapsEven : Expression → Bool
  | .Symbolic inner => allMapsEven inner
  | .Map inner => inner.length % 2 == 0 && allMapsEven inner
  | .Set inner => allMapsEven inner
  | .Vector inner => allMapsEven inner
  | _ => true
/-- Spec side: every `Map` node of every tree of the list has an even number of
children. -/
def allMapsEven : List Expression → Bool
  | [] => true
  | x :: rest => x.mapsEven && allMapsEven rest
end

mutual
/-- Spec side, the depth formula for a traversal started with the counter at
`L`: the hook calls on a tree whose root has `k` recursive ancestors.  A
recursive node gets `before` and `after` at level `L + k + 1`, around the calls
on its children, first to last, which have one ancestor more; a `Keyword`,
`Integer`, `Float`, `Ratio`, `Symbol` or `String` node gets `before` and `after`
at level `L + k`; a `Literal` node gets no call. -/
def depthEvents (L : Int) (k : Nat) : Expression → List Event
  | .Keyword value =>
      [⟨.before, .Keyword, .Keyword value, L + k⟩, ⟨.after, .Keyword, .Keyword value, L + k⟩]
  | .Integer value =>
      [⟨.before, .Integer, .Integer value, L + k⟩, ⟨.after, .Integer, .Integer value, L + k⟩]
  | .Float value =>
      [⟨.before, .Float, .Float value, L + k⟩, ⟨.after, .Float, .Float value, L + k⟩]
  | .Ratio n m =>
      [⟨.before, .Ratio, .Ratio n m, L + k⟩, ⟨.after, .Ratio, .Ratio n m, L + k⟩]
  | .Symbol value =>
      [⟨.before, .Symbol, .Symbol value, L + k⟩, ⟨.after, .Symbol, .Symbol value, L + k⟩]
  | .String value =>
      [⟨.before, .String, .String value, L + k⟩, ⟨.after, .String, .String value, L + k⟩]
  | .Literal _ => []
  | .Symbolic inner =>
      ⟨.before, .Symbolic, .Symbolic inner, L + k + 1⟩
        :: (depthEventsList L (k + 1) inner
            ++ [⟨.after, .Symbolic, .Symbolic inner, L + k + 1⟩])
  | .Map inner =>
      ⟨.before, .Map, .Map inner, L + k + 1⟩
        :: (depthEventsList L (k + 1) inner ++ [⟨.after, .Map, .Map inner, L + k + 1⟩])
  | .Set inner =>
      ⟨.before, .Set, .Set inner, L + k + 1⟩
        :: (depthEventsList L (k + 1) inner ++ [⟨.after, .Set, .Set inner, L + k + 1⟩])
  | .Vector inner =>
      ⟨.before, .Vector, .Vector inner, L + k + 1⟩
        :: (depthEventsList L (k + 1) inner ++ [⟨.after, .Vector, .Vector inner, L + k + 1⟩])
/-- Spec side: the hook calls on the trees of the list, first to last, each with
`k` recursive ancestors. -/
def depthEventsList (L : Int) (k : Nat) : List Expression → List Event
  | [] => []
  | x :: rest => depthEvents L k x ++ depthEventsList L k rest
end

/-! ## Basic facts about the engine -/

section Basic

variable {σ : Type}

theorem Outcome.andThen_completed (s : RecursiveVisitor σ)
    (k : RecursiveVisitor σ → Outcome σ) :
    (Outcome.completed s).andThen k = k s := rfl

theorem Outcome.andThen_pastEnd (s : RecursiveVisitor σ)
    (k : RecursiveVisitor σ → Outcome σ) :
    (Outcome.pastEnd s).andThen k = .pastEnd s := rfl

theorem replay_append (d : ExpressionVisitor σ) (log : List Event) (ev : Event) (st : σ) :
    replay d (log ++ [ev]) st = Event.run d (replay d log st) ev := by
  simp [replay, List.foldl_append]

theorem replay_Recorder (log : List Event) (log0 : List Event) :
    replay Recorder log log0 = log0 ++ log := by
  induction log using List.reverseRecOn with
  | nil => simp [replay]
  | append_singleton l ev ih =>
      rw [replay_append, ih]
      cases ev with
      | mk h o n lv => cases h <;> simp [Event.run, Recorder]

theorem Outcome.replayOn_andThen (d : ExpressionVisitor σ) (st : σ)
    (r : Outcome (List Event)) (k : RecursiveVisitor (List Event) → Outcome (List Event))
    (k2 : RecursiveVisitor σ → Outcome σ)
    (hk : ∀ s, (k s).replayOn d st = k2 ⟨s.level, replay d s.derived st⟩) :
    (r.andThen k).replayOn d st = (r.replayOn d st).andThen k2 := by
  cases r with
  | completed s => exact hk s
  | pastEnd s => rfl

theorem map_loop_nil (d : ExpressionVisitor σ) (s : RecursiveVisitor σ) :
    RecursiveVisitor.map_loop d [] s = .completed s := rfl

theorem map_loop_single (d : ExpressionVisitor σ) (x : Expression)
    (s : RecursiveVisitor σ) :
    RecursiveVisitor.map_loop d [x] s
      = (RecursiveVisitor.handle_expression d x s).andThen fun s1 => .pastEnd s1 := rfl

theorem map_loop_cons_cons (d : ExpressionVisitor σ) (x y : Expression)
    (rest : List Expression) (s : RecursiveVisitor σ) :
    RecursiveVisitor.map_loop d (x :: y :: rest) s
      = (RecursiveVisitor.handle_expression d x s).andThen fun s1 =>
          (RecursiveVisitor.handle_expression d y s1).andThen fun s2 =>
            RecursiveVisitor.map_loop d (y :: rest) s2 := rfl

theorem for_each_nil (d : ExpressionVisitor σ) (s : RecursiveVisitor σ) :
    RecursiveVisitor.for_each d [] s = .completed s := rfl

theorem for_each_cons (d : ExpressionVisitor σ) (x : Expression)
    (rest : List Expression) (s : RecursiveVisitor σ) :
    RecursiveVisitor.for_each d (x :: rest) s
      = (RecursiveVisitor.handle_expression d x s).andThen fun s1 =>
          RecursiveVisitor.for_each d rest s1 := rfl

/-- Entering a container (`level++`, then `before`) commutes with replay. -/
theorem replay_enter (d : ExpressionVisitor σ) (o : Overload) (e : Expression) (st : σ)
    (s : RecursiveVisitor (List Event)) :
    (⟨(s.incr.before Recorder o e).level, replay d (s.incr.before Recorder o e).derived st⟩ :
        RecursiveVisitor σ)
      = (⟨s.level, replay d s.derived st⟩ : RecursiveVisitor σ).incr.before d o e := by
  simp [RecursiveVisitor.before, RecursiveVisitor.incr, Recorder, replay_append, Event.run]

/-- Leaving a container (`after`, then `level--`) commutes with replay. -/
theorem replay_leave (d : ExpressionVisitor σ) (o : Overload) (e : Expression) (st : σ)
    (s : RecursiveVisitor (List Event)) :
    (Outcome.completed (s.after Recorder o e).decr).replayOn d st
      = .completed ((⟨s.level, replay d s.derived st⟩ : RecursiveVisitor σ).after d o e).decr := by
  simp [Outcome.replayOn, RecursiveVisitor.after, RecursiveVisitor.decr, Recorder,
    replay_append, Event.run]

/-- The two hook calls on an atomic node commute with replay. -/
theorem replay_atom (d : ExpressionVisitor σ) (o : Overload) (e : Expression) (st : σ)
    (s : RecursiveVisitor (List Event)) :
    (Outcome.completed ((s.before Recorder o e).after Recorder o e)).replayOn d st
      = .completed
          (((⟨s.level, replay d s.derived st⟩ : RecursiveVisitor σ).before d o e).after d o e) := by
  simp [Outcome.replayOn, RecursiveVisitor.after, RecursiveVisitor.before, Recorder,
    replay, List.foldl_append, Event.run]

mutual
/-- Adequacy of the recorder: the run of any visitor is the run of the recorder
with the recorded hook calls replayed on that visitor; outcome and level agree. -/
theorem handle_expression_replay (d : ExpressionVisitor σ) (st : σ) :
    ∀ (e : Expression) (s : RecursiveVisitor (List Event)),
      (RecursiveVisitor.handle_expression Recorder e s).replayOn d st
        = RecursiveVisitor.handle_expression d e ⟨s.level, replay d s.derived st⟩
  | .Keyword _, s => replay_atom d _ _ st s
  | .Integer _, s => replay_atom d _ _ st s
  | .Float _, s => replay_atom d _ _ st s
  | .Ratio _ _, s => replay_atom d _ _ st s
  | .Symbol _, s => replay_atom d _ _ st s
  | .String _, s => replay_atom d _ _ st s
  | .Literal _, _ => rfl
  | .Symbolic inner, s => by
      simp only [RecursiveVisitor.handle_expression]
      rw [Outcome.replayOn_andThen d st _ _
        (fun s1 => .completed (s1.after d .Symbolic (.Symbolic inner)).decr)
        (fun s1 => replay_leave d _ _ st s1)]
      rw [for_each_replay d st inner, replay_enter]
  | .Set inner, s => by
      simp only [RecursiveVisitor.handle_expression]
      rw [Outcome.replayOn_andThen d st _ _
        (fun s1 => .completed (s1.after d .Set (.Set inner)).decr)
        (fun s1 => replay_leave d _ _ st s1)]
      rw [for_each_replay d st inner, replay_enter]
  | .Vector inner, s => by
      simp only [RecursiveVisitor.handle_expression]
      rw [Outcome.replayOn_andThen d st _ _
        (fun s1 => .completed (s1.after d .Vector (.Vector inner)).decr)
        (fun s1 => replay_leave d _ _ st s1)]
      rw [for_each_replay d st inner, replay_enter]
  | .Map inner, s => by
      simp only [RecursiveVisitor.handle_expression]
      rw [Outcome.replayOn_andThen d st _ _
        (fun s1 => .completed (s1.after d .Map (.Map inner)).decr)
        (fun s1 => replay_leave d _ _ st s1)]
      rw [map_loop_replay d st inner, replay_enter]
theorem for_each_replay (d : ExpressionVisitor σ) (st : σ) :
    ∀ (l : List Expression) (s : RecursiveVisitor (List Event)),
      (RecursiveVisitor.for_each Recorder l s).replayOn d st
        = RecursiveVisitor.for_each d l ⟨s.level, replay d s.derived st⟩
  | [], _ => rfl
  | x :: rest, s => by
      rw [for_each_cons, for_each_cons]
      rw [Outcome.replayOn_andThen d st _ _
        (fun s1 => RecursiveVisitor.for_each d rest s1)
        (fun s1 => for_each_replay d st rest s1)]
      rw [handle_expression_replay d st x]
theorem map_loop_replay (d : ExpressionVisitor σ) (st : σ) :
    ∀ (l : List Expression) (s : RecursiveVisitor (List Event)),
      (RecursiveVisitor.map_loop Recorder l s).replayOn d st
        = RecursiveVisitor.map_loop d l ⟨s.level, replay d s.derived st⟩
  | [], _ => rfl
  | [x], s => by
      rw [map_loop_single, map_loop_single]
      rw [Outcome.replayOn_andThen d st _ (fun s1 => .pastEnd s1) (fun s1 => .pastEnd s1)
        (fun s1 => rfl)]
      rw [handle_expression_replay d st x]
  | x :: y :: rest, s => by
      rw [map_loop_cons_cons, map_loop_cons_cons]
      rw [Outcome.replayOn_andThen d st _ _
        (fun s1 => (RecursiveVisitor.handle_expression d y s1).andThen fun s2 =>
            RecursiveVisitor.map_loop d (y :: rest) s2)
        (fun s1 => by
          rw [Outcome.replayOn_andThen d st _ _
            (fun s2 => RecursiveVisitor.map_loop d (y :: rest) s2)
            (fun s2 => map_loop_replay d st (y :: rest) s2)]
          rw [handle_expression_replay d st y])]
      rw [handle_expression_replay d st x]
end

mutual
/-- A tree whose `Map` nodes are all empty is traversed to the end, and the
counter is back at its entry value. -/
theorem handle_expression_completes (d : ExpressionVisitor σ) :
    ∀ (e : Expression) (s : RecursiveVisitor σ), e.mapsEmpty = true →
      ∃ st, RecursiveVisitor.handle_expression d e s = .completed ⟨s.level, st⟩
  | .Keyword _, _, _ => ⟨_, rfl⟩
  | .Integer _, _, _ => ⟨_, rfl⟩
  | .Float _, _, _ => ⟨_, rfl⟩
  | .Ratio _ _, _, _ => ⟨_, rfl⟩
  | .Symbol _, _, _ => ⟨_, rfl⟩
  | .String _, _, _ => ⟨_, rfl⟩
  | .Literal _, _, _ => ⟨_, rfl⟩
  | .Symbolic inner, s, h => by
      obtain ⟨st, hst⟩ := for_each_completes d inner
        (s.incr.before d .Symbolic (.Symbolic inner)) (by simpa [Expression.mapsEmpty] using h)
      refine ⟨d.after .Symbolic (.Symbolic inner) (s.level + 1) st, ?_⟩
      simp only [RecursiveVisitor.handle_expression, hst, Outcome.andThen]
      simp [RecursiveVisitor.after, RecursiveVisitor.decr, RecursiveVisitor.before,
        RecursiveVisitor.incr]
  | .Set inner, s, h => by
      obtain ⟨st, hst⟩ := for_each_completes d inner
        (s.incr.before d .Set (.Set inner)) (by simpa [Expression.mapsEmpty] using h)
      refine ⟨d.after .Set (.Set inner) (s.level + 1) st, ?_⟩
      simp only [RecursiveVisitor.handle_expression, hst, Outcome.andThen]
      simp [RecursiveVisitor.after, RecursiveVisitor.decr, RecursiveVisitor.before,
        RecursiveVisitor.incr]
  | .Vector inner, s, h => by
      obtain ⟨st, hst⟩ := for_each_completes d inner
        (s.incr.before d .Vector (.Vector inner)) (by simpa [Expression.mapsEmpty] using h)
      refine ⟨d.after .Vector (.Vector inner) (s.level + 1) st, ?_⟩
      simp only [RecursiveVisitor.handle_expression, hst, Outcome.andThen]
      simp [RecursiveVisitor.after, RecursiveVisitor.decr, RecursiveVisitor.before,
        RecursiveVisitor.incr]
  | .Map [], s, _ => by
      refine ⟨d.after .Map (.Map []) (s.level + 1)
        (d.before .Map (.Map []) (s.level + 1) s.derived), ?_⟩
      simp [RecursiveVisitor.handle_expression, RecursiveVisitor.map_loop, Outcome.andThen,
        RecursiveVisitor.after, RecursiveVisitor.decr, RecursiveVisitor.before,
        RecursiveVisitor.incr]
  | .Map (_ :: _), _, h => by simp [Expression.mapsEmpty] at h
theorem for_each_completes (d : ExpressionVisitor σ) :
    ∀ (l : List Expression) (s : RecursiveVisitor σ), allMapsEmpty l = true →
      ∃ st, RecursiveVisitor.for_each d l s = .completed ⟨s.level, st⟩
  | [], s, _ => ⟨s.derived, rfl⟩
  | x :: rest, s, h => by
      have hx : x.mapsEmpty = true ∧ allMapsEmpty rest = true := by
        simpa [allMapsEmpty] using h
      obtain ⟨st1, h1⟩ := handle_expression_completes d x s hx.1
      obtain ⟨st2, h2⟩ := for_each_completes d rest ⟨s.level, st1⟩ hx.2
      exact ⟨st2, by rw [for_each_cons, h1, Outcome.andThen_completed, h2]⟩
end

/-- The `Map` loop on a non-empty child sequence never returns: it ends by
dereferencing `end()`. -/
theorem map_loop_pastEnd (d : ExpressionVisitor σ) :
    ∀ (rest : List Expression) (x : Expression) (s : RecursiveVisitor σ),
      ∃ s1, RecursiveVisitor.map_loop d (x :: rest) s = .pastEnd s1
  | [], x, s => by
      rw [map_loop_single]
      cases RecursiveVisitor.handle_expression d x s with
      | completed s1 => exact ⟨s1, rfl⟩
      | pastEnd s1 => exact ⟨s1, rfl⟩
  | y :: rest, x, s => by
      rw [map_loop_cons_cons]
      cases RecursiveVisitor.handle_expression d x s with
      | pastEnd s1 => exact ⟨s1, rfl⟩
      | completed s1 =>
          rw [Outcome.andThen_completed]
          cases RecursiveVisitor.handle_expression d y s1 with
          | pastEnd s2 => exact ⟨s2, rfl⟩
          | completed s2 =>
              rw [Outcome.andThen_completed]
              exact map_loop_pastEnd d rest y s2

/-- A run that does not return keeps not returning through what follows. -/
theorem Outcome.andThen_of_pastEnd (r : Outcome σ) (k : RecursiveVisitor σ → Outcome σ)
    (h : ∃ s1, r = .pastEnd s1) : ∃ s1, r.andThen k = .pastEnd s1 := by
  obtain ⟨s1, rfl⟩ := h
  exact ⟨s1, rfl⟩

/-- The branch for a `Map` node with at least one child never returns. -/
theorem handle_expression_Map_cons (d : ExpressionVisitor σ) (x : Expression)
    (rest : List Expression) (s : RecursiveVisitor σ) :
    ∃ s1, RecursiveVisitor.handle_expression d (.Map (x :: rest)) s = .pastEnd s1 := by
  simp only [RecursiveVisitor.handle_expression]
  exact Outcome.andThen_of_pastEnd _ _ (map_loop_pastEnd d rest x _)

mutual
/-- A tree with a `Map` node that has a child is not traversed to the end. -/
theorem handle_expression_not_completes (d : ExpressionVisitor σ) :
    ∀ (e : Expression) (s : RecursiveVisitor σ), e.mapsEmpty = false →
      ∃ s1, RecursiveVisitor.handle_expression d e s = .pastEnd s1
  | .Keyword _, _, h => by simp [Expression.mapsEmpty] at h
  | .Integer _, _, h => by simp [Expression.mapsEmpty] at h
  | .Float _, _, h => by simp [Expression.mapsEmpty] at h
  | .Ratio _ _, _, h => by simp [Expression.mapsEmpty] at h
  | .Symbol _, _, h => by simp [Expression.mapsEmpty] at h
  | .String _, _, h => by simp [Expression.mapsEmpty] at h
  | .Literal _, _, h => by simp [Expression.mapsEmpty] at h
  | .Map [], _, h => by simp [Expression.mapsEmpty] at h
  | .Map (x :: rest), s, _ => handle_expression_Map_cons d x rest s
  | .Symbolic inner, s, h => by
      simp only [RecursiveVisitor.handle_expression]
      exact Outcome.andThen_of_pastEnd _ _
        (for_each_not_completes d inner _ (by simpa [Expression.mapsEmpty] using h))
  | .Set inner, s, h => by
      simp only [RecursiveVisitor.handle_expression]
      exact Outcome.andThen_of_pastEnd _ _
        (for_each_not_completes d inner _ (by simpa [Expression.mapsEmpty] using h))
  | .Vector inner, s, h => by
      simp only [RecursiveVisitor.handle_expression]
      exact Outcome.andThen_of_pastEnd _ _
        (for_each_not_completes d inner _ (by simpa [Expression.mapsEmpty] using h))
theorem for_each_not_completes (d : ExpressionVisitor σ) :
    ∀ (l : List Expression) (s : RecursiveVisitor σ), allMapsEmpty l = false →
      ∃ s1, RecursiveVisitor.for_each d l s = .pastEnd s1
  | [], _, h => by simp [allMapsEmpty] at h
  | x :: rest, s, h => by
      rw [for_each_cons]
      cases hx : x.mapsEmpty with
      | false => exact Outcome.andThen_of_pastEnd _ _ (handle_expression_not_completes d x s hx)
      | true =>
          have hrest : allMapsEmpty rest = false := by
            simpa [allMapsEmpty, hx] using h
          cases hr : RecursiveVisitor.handle_expression d x s with
          | pastEnd s1 => exact ⟨s1, rfl⟩
          | completed s1 =>
              rw [Outcome.andThen_completed]
              exact for_each_not_completes d rest s1 hrest
end

/-- A traversal returns exactly when every `Map` node of the tree is empty. -/
theorem visit_isCompleted_iff (d : ExpressionVisitor σ) (e : Expression)
    (s : RecursiveVisitor σ) :
    (RecursiveVisitor.visit d (some e) s).isCompleted = true ↔ e.mapsEmpty = true := by
  constructor
  · intro h
    cases hm : e.mapsEmpty with
    | true => rfl
    | false =>
        obtain ⟨s1, h1⟩ := handle_expression_not_completes d e s hm
        simp [RecursiveVisitor.visit, h1, Outcome.isCompleted] at h
  · intro h
    obtain ⟨st, h1⟩ := handle_expression_completes d e s h
    simp [RecursiveVisitor.visit, h1, Outcome.isCompleted]

/-- The recorder started on a log is the recorder started on the empty log, with
the old log in front. -/
theorem handle_expression_Recorder_from_log (e : Expression) (s : RecursiveVisitor (List Event)) :
    RecursiveVisitor.handle_expression Recorder e s
      = (RecursiveVisitor.handle_expression Recorder e ⟨s.level, []⟩).replayOn Recorder
          s.derived := by
  rw [handle_expression_replay Recorder s.derived e ⟨s.level, []⟩]
  simp [replay]

/-- On a tree whose `Map` nodes are all empty the recorder appends the hook trace
of the tree to its log. -/
theorem handle_expression_Recorder (e : Expression) (s : RecursiveVisitor (List Event))
    (h : e.mapsEmpty = true) :
    RecursiveVisitor.handle_expression Recorder e s
      = .completed ⟨s.level, s.derived ++ hookTrace e s.level⟩ := by
  obtain ⟨tr, htr⟩ := handle_expression_completes Recorder e ⟨s.level, []⟩ h
  rw [handle_expression_Recorder_from_log, hookTrace, RecursiveVisitor.visit, htr]
  simp [Outcome.replayOn, Outcome.state, replay_Recorder]

/-- The `for` loop of the recorder over trees whose `Map` nodes are all empty
appends the hook traces of the trees, in list order. -/
theorem for_each_Recorder :
    ∀ (l : List Expression) (s : RecursiveVisitor (List Event)), allMapsEmpty l = true →
      RecursiveVisitor.for_each Recorder l s
        = .completed ⟨s.level, s.derived ++ l.flatMap fun c => hookTrace c s.level⟩
  | [], s, _ => by simp [for_each_nil]
  | x :: rest, s, h => by
      have hx : x.mapsEmpty = true ∧ allMapsEmpty rest = true := by
        simpa [allMapsEmpty] using h
      rw [for_each_cons, handle_expression_Recorder x s hx.1, Outcome.andThen_completed,
        for_each_Recorder rest _ hx.2]
      simp [List.flatMap_cons]

theorem Outcome.andThen_assoc (r : Outcome σ) (k1 k2 : RecursiveVisitor σ → Outcome σ) :
    (r.andThen k1).andThen k2 = r.andThen fun s => (k1 s).andThen k2 := by
  cases r <;> rfl

theorem Outcome.andThen_completed_right (r : Outcome σ) :
    r.andThen Outcome.completed = r := by
  cases r <;> rfl

theorem foldl_accept (d : ExpressionVisitor σ) :
    ∀ (l : List Expression) (r : Outcome σ),
      l.foldl (fun r c => r.andThen (Expression.accept d c)) r
        = r.andThen (RecursiveVisitor.for_each d l)
  | [], r => by
      have h : RecursiveVisitor.for_each d [] = Outcome.completed := by
        funext s; rfl
      simp [h, Outcome.andThen_completed_right]
  | x :: rest, r => by
      rw [List.foldl_cons, foldl_accept d rest, Outcome.andThen_assoc]
      rfl

/-- The `for` loop is "accept on each child in list order". -/
theorem for_each_eq_acceptEach (d : ExpressionVisitor σ) (l : List Expression)
    (s : RecursiveVisitor σ) :
    RecursiveVisitor.for_each d l s = acceptEach d l s := by
  rw [acceptEach, foldl_accept, Outcome.andThen_completed]

/-- The `Vector` branch of the recorder when the traversals of the children
return. -/
theorem handle_expression_Vector_Recorder (inner : List Expression)
    (s : RecursiveVisitor (List Event)) (h : allMapsEmpty inner = true) :
    RecursiveVisitor.handle_expression Recorder (.Vector inner) s
      = .completed ⟨s.level,
          s.derived ++ ⟨.before, .Vector, .Vector inner, s.level + 1⟩
            :: ((inner.flatMap fun c => hookTrace c (s.level + 1))
                ++ [⟨.after, .Vector, .Vector inner, s.level + 1⟩])⟩ := by
  simp only [RecursiveVisitor.handle_expression]
  rw [for_each_Recorder inner _ h, Outcome.andThen_completed]
  simp [RecursiveVisitor.after, RecursiveVisitor.decr, RecursiveVisitor.before,
    RecursiveVisitor.incr, Recorder]

mutual
theorem mapsEmpty_of_isVectorTree :
    ∀ e : Expression, e.isVectorTree = true → e.mapsEmpty = true
  | .Vector inner, h => by
      simp only [Expression.isVectorTree] at h
      simpa [Expression.mapsEmpty] using allMapsEmpty_of_allVectorTrees inner h
  | .Keyword _, h => by simp [Expression.isVectorTree] at h
  | .Integer _, h => by simp [Expression.isVectorTree] at h
  | .Float _, h => by simp [Expression.isVectorTree] at h
  | .Ratio _ _, h => by simp [Expression.isVectorTree] at h
  | .Literal _, h => by simp [Expression.isVectorTree] at h
  | .Symbol _, h => by simp [Expression.isVectorTree] at h
  | .Symbolic _, h => by simp [Expression.isVectorTree] at h
  | .Map _, h => by simp [Expression.isVectorTree] at h
  | .Set _, h => by simp [Expression.isVectorTree] at h
  | .String _, h => by simp [Expression.isVectorTree] at h
theorem allMapsEmpty_of_allVectorTrees :
    ∀ l : List Expression, allVectorTrees l = true → allMapsEmpty l = true
  | [], _ => rfl
  | x :: rest, h => by
      have hx : x.isVectorTree = true ∧ allVectorTrees rest = true := by
        simpa [allVectorTrees] using h
      simp [allMapsEmpty, mapsEmpty_of_isVectorTree x hx.1,
        allMapsEmpty_of_allVectorTrees rest hx.2]
end

mutual
/-- On a tree of `Vector` nodes the hook trace is the depth-first pairing. -/
theorem hookTrace_eq_dfsPairing :
    ∀ (e : Expression) (lvl : Int), e.isVectorTree = true → hookTrace e lvl = dfsPairing lvl e
  | .Vector inner, lvl, h => by
      have hin : allVectorTrees inner = true := by
        simpa [Expression.isVectorTree] using h
      rw [hookTrace, RecursiveVisitor.visit,
        handle_expression_Vector_Recorder inner _ (allMapsEmpty_of_allVectorTrees inner hin)]
      simp [Outcome.state, dfsPairing, flatMap_hookTrace_eq_dfsPairingList inner (lvl + 1) hin]
  | .Keyword _, _, h => by simp [Expression.isVectorTree] at h
  | .Integer _, _, h => by simp [Expression.isVectorTree] at h
  | .Float _, _, h => by simp [Expression.isVectorTree] at h
  | .Ratio _ _, _, h => by simp [Expression.isVectorTree] at h
  | .Literal _, _, h => by simp [Expression.isVectorTree] at h
  | .Symbol _, _, h => by simp [Expression.isVectorTree] at h
  | .Symbolic _, _, h => by simp [Expression.isVectorTree] at h
  | .Map _, _, h => by simp [Expression.isVectorTree] at h
  | .Set _, _, h => by simp [Expression.isVectorTree] at h
  | .String _, _, h => by simp [Expression.isVectorTree] at h
theorem flatMap_hookTrace_eq_dfsPairingList :
    ∀ (l : List Expression) (lvl : Int), allVectorTrees l = true →
      (l.flatMap fun c => hookTrace c lvl) = dfsPairingList lvl l
  | [], _, _ => rfl
  | x :: rest, lvl, h => by
      have hx : x.isVectorTree = true ∧ allVectorTrees rest = true := by
        simpa [allVectorTrees] using h
      rw [List.flatMap_cons, hookTrace_eq_dfsPairing x lvl hx.1,
        flatMap_hookTrace_eq_dfsPairingList rest lvl hx.2, dfsPairingList]
end

mutual
/-- In the depth-first pairing of a tree of `Vector` nodes each hook family is
called as many times as the tree has nodes. -/
theorem countHook_dfsPairing (k : Hook) :
    ∀ (e : Expression) (lvl : Int), e.isVectorTree = true →
      countHook k (dfsPairing lvl e) = e.nodes
  | .Vector inner, lvl, h => by
      have hin : allVectorTrees inner = true := by
        simpa [Expression.isVectorTree] using h
      have ih := countHook_dfsPairingList k inner (lvl + 1) hin
      unfold countHook at ih ⊢
      cases k <;>
        simp [dfsPairing, Expression.nodes, List.countP_cons, List.countP_append, ih] <;>
        omega
  | .Keyword _, _, h => by simp [Expression.isVectorTree] at h
  | .Integer _, _, h => by simp [Expression.isVectorTree] at h
  | .Float _, _, h => by simp [Expression.isVectorTree] at h
  | .Ratio _ _, _, h => by simp [Expression.isVectorTree] at h
  | .Literal _, _, h => by simp [Expression.isVectorTree] at h
  | .Symbol _, _, h => by simp [Expression.isVectorTree] at h
  | .Symbolic _, _, h => by simp [Expression.isVectorTree] at h
  | .Map _, _, h => by simp [Expression.isVectorTree] at h
  | .Set _, _, h => by simp [Expression.isVectorTree] at h
  | .String _, _, h => by simp [Expression.isVectorTree] at h
theorem countHook_dfsPairingList (k : Hook) :
    ∀ (l : List Expression) (lvl : Int), allVectorTrees l = true →
      countHook k (dfsPairingList lvl l) = nodesOf l
  | [], _, _ => rfl
  | x :: rest, lvl, h => by
      have hx : x.isVectorTree = true ∧ allVectorTrees rest = true := by
        simpa [allVectorTrees] using h
      have h1 := countHook_dfsPairing k x lvl hx.1
      have h2 := countHook_dfsPairingList k rest lvl hx.2
      unfold countHook at h1 h2 ⊢
      simp [dfsPairingList, nodesOf, List.countP_append, h1, h2]
end

theorem for_each_append (d : ExpressionVisitor σ) :
    ∀ (l1 l2 : List Expression) (s : RecursiveVisitor σ),
      RecursiveVisitor.for_each d (l1 ++ l2) s
        = (RecursiveVisitor.for_each d l1 s).andThen (RecursiveVisitor.for_each d l2)
  | [], _, _ => rfl
  | x :: l1, l2, s => by
      rw [List.cons_append, for_each_cons, for_each_cons, Outcome.andThen_assoc]
      congr 1
      funext s1
      exact for_each_append d l1 l2 s1

/-- The recorder only ever appends to its log. -/
theorem handle_expression_Recorder_extends (e : Expression)
    (s : RecursiveVisitor (List Event)) :
    s.derived <+: (RecursiveVisitor.handle_expression Recorder e s).state.derived := by
  rw [handle_expression_Recorder_from_log]
  cases RecursiveVisitor.handle_expression Recorder e ⟨s.level, []⟩ <;>
    simp [Outcome.replayOn, Outcome.state, replay_Recorder]

theorem for_each_Recorder_extends (l : List Expression)
    (s : RecursiveVisitor (List Event)) :
    s.derived <+: (RecursiveVisitor.for_each Recorder l s).state.derived := by
  have h := for_each_replay Recorder s.derived l ⟨s.level, []⟩
  simp only [replay, List.foldl_nil] at h
  rw [← h]
  cases RecursiveVisitor.for_each Recorder l ⟨s.level, []⟩ <;>
    simp [Outcome.replayOn, Outcome.state, replay_Recorder]

theorem Outcome.andThen_extends (r : Outcome (List Event))
    (k : RecursiveVisitor (List Event) → Outcome (List Event))
    (hk : ∀ s, s.derived <+: (k s).state.derived) :
    r.state.derived <+: (r.andThen k).state.derived := by
  cases r with
  | completed s => exact hk s
  | pastEnd s => exact List.prefix_refl _

/-- The log of the recorder on a `Vector` node starts with the old log and the
`before` call on the node. -/
theorem handle_expression_Vector_enter (zs : List Expression)
    (s : RecursiveVisitor (List Event)) :
    s.derived ++ [⟨.before, .Vector, .Vector zs, s.level + 1⟩]
      <+: (RecursiveVisitor.handle_expression Recorder (.Vector zs) s).state.derived := by
  simp only [RecursiveVisitor.handle_expression]
  refine List.IsPrefix.trans ?_ (Outcome.andThen_extends _ _ fun s1 => ?_)
  · exact for_each_Recorder_extends zs ((s.incr).before Recorder .Vector (.Vector zs))
  · simp [Outcome.state, RecursiveVisitor.after, RecursiveVisitor.decr, Recorder]

/-- The log of the recorder on a `Vector` node, one of whose children is `x` and
the children before `x` are traversed to the end, starts with the log of the
run on `x` that is entered after the `before` call on the node and the hook
traces of the children before `x`. -/
theorem handle_expression_Vector_descend (pre post : List Expression) (x : Expression)
    (s : RecursiveVisitor (List Event)) (h : allMapsEmpty pre = true) :
    (RecursiveVisitor.handle_expression Recorder x
        ⟨s.level + 1,
          s.derived ++ ⟨.before, .Vector, .Vector (pre ++ x :: post), s.level + 1⟩
            :: (pre.flatMap fun c => hookTrace c (s.level + 1))⟩).state.derived
      <+: (RecursiveVisitor.handle_expression Recorder
            (.Vector (pre ++ x :: post)) s).state.derived := by
  simp only [RecursiveVisitor.handle_expression]
  rw [for_each_append, for_each_Recorder pre _ h, Outcome.andThen_completed, for_each_cons]
  refine List.IsPrefix.trans ?_ (Outcome.andThen_extends _ _ fun s1 => ?_)
  · refine List.IsPrefix.trans ?_ (Outcome.andThen_extends _ _ fun s1 => ?_)
    · simp [RecursiveVisitor.before, RecursiveVisitor.incr, Recorder]
    · exact for_each_Recorder_extends post s1
  · simp [Outcome.state, RecursiveVisitor.after, RecursiveVisitor.decr, Recorder]

end Basic

/-! ## The traversal contract -/

/-- C1, refuted at the vector `[{1} 9]`, whose first child is a `Map` with one
child, started at level 0: the run enters the vector and the map, calls the
hooks of `1` and then dereferences `end()`.  The child `9` is never visited,
`after` is never called on the vector, the counter is left at 2, and the hook
trace is not the `before` call, the traces of the children and the `after`
call. -/
theorem C1_recursive_kinds_counterexample :
    RecursiveVisitor.visit Recorder
        (some (.Vector [.Map [.Integer 1], .Integer 9])) ⟨0, []⟩
      = .pastEnd ⟨2,
          [⟨.before, .Vector, .Vector [.Map [.Integer 1], .Integer 9], 1⟩,
           ⟨.before, .Map, .Map [.Integer 1], 2⟩,
           ⟨.before, .Integer, .Integer 1, 2⟩, ⟨.after, .Integer, .Integer 1, 2⟩]⟩
    ∧ ¬ (hookTrace (.Vector [.Map [.Integer 1], .Integer 9]) 0
        = ⟨.before, .Vector, .Vector [.Map [.Integer 1], .Integer 9], 0 + 1⟩
            :: (([Expression.Map [.Integer 1], Expression.Integer 9].flatMap
                  fun c => hookTrace c (0 + 1))
                ++ [⟨.after, .Vector, .Vector [.Map [.Integer 1], .Integer 9], 0 + 1⟩])) := by
  refine ⟨rfl, fun h => ?_⟩
  have hlen := congrArg List.length h
  have hl : (hookTrace (.Vector [.Map [.Integer 1], .Integer 9]) 0).length = 4 := rfl
  have hr : (⟨.before, .Vector, .Vector [.Map [.Integer 1], .Integer 9], 0 + 1⟩
            :: (([Expression.Map [.Integer 1], Expression.Integer 9].flatMap
                  fun c => hookTrace c (0 + 1))
                ++ [(⟨.after, .Vector, .Vector [.Map [.Integer 1], .Integer 9], 0 + 1⟩
                      : Event)])).length = 7 := rfl
  rw [hl, hr] at hlen
  exact absurd hlen (by decide)

/-- C1 as amended: for a `Symbolic`, `Set` or `Vector` node and any visitor and
state, `visit` does `level++`, calls `before` on the node and accepts the
children in list order, each once, a child whose traversal does not return
ending the run there; after the last child it calls `after` on the node and does
`level--`.  When the traversals of the children return (no `Map` with a child at
or below them), the hook trace is the `before` call, the hook traces of the
children in list order, the `after` call, all hooks of the node at the entry
level plus one, and the counter is back at the entry level. -/
theorem C1_recursive_kinds {σ : Type} (d : ExpressionVisitor σ) (s : RecursiveVisitor σ)
    (inner : List Expression) :
    (RecursiveVisitor.visit d (some (.Symbolic inner)) s
        = (acceptEach d inner ((s.incr).before d .Symbolic (.Symbolic inner))).andThen
            fun s1 => .completed ((s1.after d .Symbolic (.Symbolic inner)).decr))
    ∧ (RecursiveVisitor.visit d (some (.Set inner)) s
        = (acceptEach d inner ((s.incr).before d .Set (.Set inner))).andThen
            fun s1 => .completed ((s1.after d .Set (.Set inner)).decr))
    ∧ (RecursiveVisitor.visit d (some (.Vector inner)) s
        = (acceptEach d inner ((s.incr).before d .Vector (.Vector inner))).andThen
            fun s1 => .completed ((s1.after d .Vector (.Vector inner)).decr))
    ∧ (allMapsEmpty inner = true → ∀ startLevel : Int,
        RecursiveVisitor.visit Recorder (some (.Symbolic inner)) ⟨startLevel, []⟩
          = .completed ⟨startLevel,
              ⟨.before, .Symbolic, .Symbolic inner, startLevel + 1⟩
                :: ((inner.flatMap fun c => hookTrace c (startLevel + 1))
                    ++ [⟨.after, .Symbolic, .Symbolic inner, startLevel + 1⟩])⟩
        ∧ RecursiveVisitor.visit Recorder (some (.Set inner)) ⟨startLevel, []⟩
          = .completed ⟨startLevel,
              ⟨.before, .Set, .Set inner, startLevel + 1⟩
                :: ((inner.flatMap fun c => hookTrace c (startLevel + 1))
                    ++ [⟨.after, .Set, .Set inner, startLevel + 1⟩])⟩
        ∧ RecursiveVisitor.visit Recorder (some (.Vector inner)) ⟨startLevel, []⟩
          = .completed ⟨startLevel,
              ⟨.before, .Vector, .Vector inner, startLevel + 1⟩
                :: ((inner.flatMap fun c => hookTrace c (startLevel + 1))
                    ++ [⟨.after, .Vector, .Vector inner, startLevel + 1⟩])⟩) := by
  refine ⟨?_, ?_, ?_, ?_⟩
  · simp only [RecursiveVisitor.visit, RecursiveVisitor.handle_expression,
      for_each_eq_acceptEach]
  · simp only [RecursiveVisitor.visit, RecursiveVisitor.handle_expression,
      for_each_eq_acceptEach]
  · simp only [RecursiveVisitor.visit, RecursiveVisitor.handle_expression,
      for_each_eq_acceptEach]
  · intro h startLevel
    refine ⟨?_, ?_, ?_⟩ <;>
    · simp only [RecursiveVisitor.visit, RecursiveVisitor.handle_expression]
      rw [for_each_Recorder inner _ h, Outcome.andThen_completed]
      simp [RecursiveVisitor.after, RecursiveVisitor.decr, RecursiveVisitor.before,
        RecursiveVisitor.incr, Recorder]

/-- C1 as amended, at the vector `[:a []]` started at level 0. -/
theorem C1_recursive_kinds_witness :
    allMapsEmpty [.Keyword "a", .Vector []] = true
    ∧ RecursiveVisitor.visit Recorder (some (.Vector [.Keyword "a", .Vector []])) ⟨0, []⟩
        = .completed ⟨0,
            ⟨.before, .Vector, .Vector [.Keyword "a", .Vector []], 0 + 1⟩
              :: (([Expression.Keyword "a", Expression.Vector []].flatMap
                    fun c => hookTrace c (0 + 1))
                  ++ [⟨.after, .Vector, .Vector [.Keyword "a", .Vector []], 0 + 1⟩])⟩ :=
  ⟨rfl, ((C1_recursive_kinds Recorder ⟨0, []⟩ [.Keyword "a", .Vector []]).2.2.2 rfl 0).2.2⟩

/-- C2 (defect): the `Map` loop advances its iterator once per round, not twice.
On the map `{:a 1}` started at level 0 the key is visited once, the value twice,
and the run then dereferences `end()`: `after` is never called on the map and the
counter stays at 1.  No `Map` node with a child is traversed to the end, for any
visitor; only the empty `Map` is, with `before` then `after` at the entry level
plus one. -/
theorem C2_map_loop_defect :
    RecursiveVisitor.visit Recorder (some (.Map [.Keyword "a", .Integer 1])) ⟨0, []⟩
        = .pastEnd ⟨1,
            [⟨.before, .Map, .Map [.Keyword "a", .Integer 1], 1⟩,
             ⟨.before, .Keyword, .Keyword "a", 1⟩, ⟨.after, .Keyword, .Keyword "a", 1⟩,
             ⟨.before, .Integer, .Integer 1, 1⟩, ⟨.after, .Integer, .Integer 1, 1⟩,
             ⟨.before, .Integer, .Integer 1, 1⟩, ⟨.after, .Integer, .Integer 1, 1⟩]⟩
    ∧ (∀ (σ : Type) (d : ExpressionVisitor σ) (s : RecursiveVisitor σ) (x : Expression)
        (rest : List Expression),
        (RecursiveVisitor.visit d (some (.Map (x :: rest))) s).isCompleted = false)
    ∧ (∀ (σ : Type) (d : ExpressionVisitor σ) (s : RecursiveVisitor σ),
        RecursiveVisitor.visit d (some (.Map [])) s
          = .completed ⟨s.level,
              d.after .Map (.Map []) (s.level + 1)
                (d.before .Map (.Map []) (s.level + 1) s.derived)⟩) := by
  refine ⟨rfl, ?_, ?_⟩
  · intro σ d s x rest
    obtain ⟨s1, h1⟩ := handle_expression_Map_cons d x rest s
    simp [RecursiveVisitor.visit, h1, Outcome.isCompleted]
  · intro σ d s
    simp [RecursiveVisitor.visit, RecursiveVisitor.handle_expression, map_loop_nil,
      Outcome.andThen, RecursiveVisitor.after, RecursiveVisitor.decr,
      RecursiveVisitor.before, RecursiveVisitor.incr]

/-- C3, refuted at the map with the single child `1`, started at level 0: the
run is not stopped by a check, it dereferences `end()` after the hooks of the
child. -/
theorem C3_odd_map_counterexample :
    RecursiveVisitor.visit Recorder (some (.Map [.Integer 1])) ⟨0, []⟩
      = .pastEnd ⟨1,
          [⟨.before, .Map, .Map [.Integer 1], 1⟩,
           ⟨.before, .Integer, .Integer 1, 1⟩, ⟨.after, .Integer, .Integer 1, 1⟩]⟩ :=
  rfl

/-- C3 as amended: `visit` has no defence against a `Map` node whose child
sequence has odd length; for every visitor and state the run on such a node does
not return, it ends by dereferencing `end()`. -/
theorem C3_odd_map_reads_past_end {σ : Type} (d : ExpressionVisitor σ)
    (s : RecursiveVisitor σ) (inner : List Expression) (h : inner.length % 2 = 1) :
    ∃ s1, RecursiveVisitor.visit d (some (.Map inner)) s = .pastEnd s1 := by
  cases inner with
  | nil => simp at h
  | cons x rest => exact handle_expression_Map_cons d x rest s

/-- C3 as amended, at the map with the three children `1 2 3`. -/
theorem C3_odd_map_reads_past_end_witness :
    [Expression.Integer 1, Expression.Integer 2, Expression.Integer 3].length % 2 = 1
    ∧ ∃ s1, RecursiveVisitor.visit Recorder
        (some (.Map [.Integer 1, .Integer 2, .Integer 3])) ⟨0, []⟩ = .pastEnd s1 :=
  ⟨rfl, C3_odd_map_reads_past_end Recorder ⟨0, []⟩ [.Integer 1, .Integer 2, .Integer 3] rfl⟩

/-- C4, refuted: the constructor of `Map` run on the one-element list `1` yields a
`Map` node with an odd number of children, and `visit` takes it. -/
theorem C4_odd_map_counterexample :
    (Map.new [.Integer 1]).type = .Map
    ∧ (Map.new [.Integer 1]).get_inner = some [.Integer 1]
    ∧ [Expression.Integer 1].length % 2 = 1
    ∧ RecursiveVisitor.visit Recorder (some (Map.new [.Integer 1])) ⟨0, []⟩
        = .pastEnd ⟨1,
            [⟨.before, .Map, .Map [.Integer 1], 1⟩,
             ⟨.before, .Integer, .Integer 1, 1⟩, ⟨.after, .Integer, .Integer 1, 1⟩]⟩ :=
  ⟨rfl, rfl, rfl, rfl⟩

/-- C4 as amended: the constructor of `Map` checks nothing; for every child list,
of even or odd length, it yields a `Map` node holding exactly that list. -/
theorem C4_map_constructor_unchecked (inner : List Expression) :
    (Map.new inner).type = .Map ∧ (Map.new inner).get_inner = some inner :=
  ⟨rfl, rfl⟩

/-- C5: on a `Keyword`, `Integer`, `Float`, `Ratio`, `Symbol` or `String` node,
for any visitor and state, `visit` calls `before` and then `after` on the node,
both with the counter at its entry value, calls nothing else, and returns with
the counter unchanged. -/
theorem C5_atomic_kinds {σ : Type} (d : ExpressionVisitor σ) (s : RecursiveVisitor σ)
    (str : String) (n m : Int) (x : Double) (startLevel : Int) :
    (RecursiveVisitor.visit d (some (.Keyword str)) s
        = .completed ⟨s.level,
            d.after .Keyword (.Keyword str) s.level (d.before .Keyword (.Keyword str) s.level s.derived)⟩)
    ∧ (RecursiveVisitor.visit d (some (.Integer n)) s
        = .completed ⟨s.level,
            d.after .Integer (.Integer n) s.level (d.before .Integer (.Integer n) s.level s.derived)⟩)
    ∧ (RecursiveVisitor.visit d (some (.Float x)) s
        = .completed ⟨s.level,
            d.after .Float (.Float x) s.level (d.before .Float (.Float x) s.level s.derived)⟩)
    ∧ (RecursiveVisitor.visit d (some (.Ratio n m)) s
        = .completed ⟨s.level,
            d.after .Ratio (.Ratio n m) s.level (d.before .Ratio (.Ratio n m) s.level s.derived)⟩)
    ∧ (RecursiveVisitor.visit d (some (.Symbol str)) s
        = .completed ⟨s.level,
            d.after .Symbol (.Symbol str) s.level (d.before .Symbol (.Symbol str) s.level s.derived)⟩)
    ∧ (RecursiveVisitor.visit d (some (.String str)) s
        = .completed ⟨s.level,
            d.after .String (.String str) s.level (d.before .String (.String str) s.level s.derived)⟩)
    ∧ (RecursiveVisitor.visit Recorder (some (.Keyword str)) ⟨startLevel, []⟩
        = .completed ⟨startLevel,
            [⟨.before, .Keyword, .Keyword str, startLevel⟩, ⟨.after, .Keyword, .Keyword str, startLevel⟩]⟩)
    ∧ (RecursiveVisitor.visit Recorder (some (.Integer n)) ⟨startLevel, []⟩
        = .completed ⟨startLevel,
            [⟨.before, .Integer, .Integer n, startLevel⟩, ⟨.after, .Integer, .Integer n, startLevel⟩]⟩)
    ∧ (RecursiveVisitor.visit Recorder (some (.Float x)) ⟨startLevel, []⟩
        = .completed ⟨startLevel,
            [⟨.before, .Float, .Float x, startLevel⟩, ⟨.after, .Float, .Float x, startLevel⟩]⟩)
    ∧ (RecursiveVisitor.visit Recorder (some (.Ratio n m)) ⟨startLevel, []⟩
        = .completed ⟨startLevel,
            [⟨.before, .Ratio, .Ratio n m, startLevel⟩, ⟨.after, .Ratio, .Ratio n m, startLevel⟩]⟩)
    ∧ (RecursiveVisitor.visit Recorder (some (.Symbol str)) ⟨startLevel, []⟩
        = .completed ⟨startLevel,
            [⟨.before, .Symbol, .Symbol str, startLevel⟩, ⟨.after, .Symbol, .Symbol str, startLevel⟩]⟩)
    ∧ (RecursiveVisitor.visit Recorder (some (.String str)) ⟨startLevel, []⟩
        = .completed ⟨startLevel,
            [⟨.before, .String, .String str, startLevel⟩, ⟨.after, .String, .String str, startLevel⟩]⟩) := by
  refine ⟨rfl, rfl, rfl, rfl, rfl, rfl, rfl, rfl, rfl, rfl, rfl, rfl⟩

/-- C6, refuted at the literal `nil`, started at level 0: no hook is called. -/
theorem C6_literal_counterexample :
    hookTrace (.Literal "nil") 0 = []
    ∧ ¬ ∃ o, hookTrace (.Literal "nil") 0
        = [⟨.before, o, .Literal "nil", 0⟩, ⟨.after, o, .Literal "nil", 0⟩] := by
  refine ⟨rfl, ?_⟩
  rintro ⟨o, h⟩
  cases h

/-- C6 as amended: `ExpressionVisitor` has no overload of `before` or `after` that
takes a `Literal`, and on a `Literal` node `visit` calls no hook and leaves the
state, counter included, as it was. -/
theorem C6_literal_no_hook {σ : Type} (d : ExpressionVisitor σ) (s : RecursiveVisitor σ)
    (value : String) :
    (∀ o : Overload, o.type ≠ (Expression.Literal value).type)
    ∧ RecursiveVisitor.visit d (some (.Literal value)) s = .completed s
    ∧ ∀ startLevel : Int, hookTrace (.Literal value) startLevel = [] := by
  refine ⟨?_, rfl, fun _ => rfl⟩
  intro o
  cases o <;> simp [Overload.type, Expression.type]

/-- C7: on a tree made of `Vector` nodes only, from any starting level, `visit`
returns with the counter back at the starting level, and its hook calls are the
depth-first pairing: `before` on a node, then all hooks of its children, first
child to last, then `after` on the node; this holds for the recorder and, by
replay, for every visitor.  `before` is called as many times as the tree has
nodes, and so is `after`. -/
theorem C7_vector_tree_pairing (e : Expression) (startLevel : Int)
    (h : e.isVectorTree = true) :
    RecursiveVisitor.visit Recorder (some e) ⟨startLevel, []⟩
        = .completed ⟨startLevel, dfsPairing startLevel e⟩
    ∧ (∀ (σ : Type) (d : ExpressionVisitor σ) (st : σ),
        RecursiveVisitor.visit d (some e) ⟨startLevel, st⟩
          = .completed ⟨startLevel, replay d (dfsPairing startLevel e) st⟩)
    ∧ countHook .before (hookTrace e startLevel) = e.nodes
    ∧ countHook .after (hookTrace e startLevel) = e.nodes := by
  have hrec : RecursiveVisitor.handle_expression Recorder e ⟨startLevel, []⟩
      = .completed ⟨startLevel, dfsPairing startLevel e⟩ := by
    rw [handle_expression_Recorder e _ (mapsEmpty_of_isVectorTree e h),
      hookTrace_eq_dfsPairing e startLevel h]
    simp
  refine ⟨hrec, ?_, ?_, ?_⟩
  · intro σ d st
    have hr := handle_expression_replay d st e ⟨startLevel, []⟩
    rw [hrec] at hr
    simpa [RecursiveVisitor.visit, Outcome.replayOn, replay] using hr.symm
  · rw [hookTrace_eq_dfsPairing e startLevel h]
    exact countHook_dfsPairing .before e startLevel h
  · rw [hookTrace_eq_dfsPairing e startLevel h]
    exact countHook_dfsPairing .after e startLevel h

/-- C7, at the tree `[[[]] []]` started at level 0. -/
theorem C7_vector_tree_pairing_witness :
    (Expression.Vector [.Vector [.Vector []], .Vector []]).isVectorTree = true
    ∧ RecursiveVisitor.visit Recorder
        (some (.Vector [.Vector [.Vector []], .Vector []])) ⟨0, []⟩
        = .completed ⟨0,
            [⟨.before, .Vector, .Vector [.Vector [.Vector []], .Vector []], 1⟩,
             ⟨.before, .Vector, .Vector [.Vector []], 2⟩,
             ⟨.before, .Vector, .Vector [], 3⟩,
             ⟨.after, .Vector, .Vector [], 3⟩,
             ⟨.after, .Vector, .Vector [.Vector []], 2⟩,
             ⟨.before, .Vector, .Vector [], 2⟩,
             ⟨.after, .Vector, .Vector [], 2⟩,
             ⟨.after, .Vector, .Vector [.Vector [.Vector []], .Vector []], 1⟩]⟩ :=
  ⟨rfl, (C7_vector_tree_pairing (.Vector [.Vector [.Vector []], .Vector []]) 0 rfl).1⟩

/-- C8, refuted at the root `[{1} [[]]]`, whose first child is a `Map` with one
child, started at level 0: the run enters the root and the map, calls the hooks
of `1` and then dereferences `end()`.  No hook is called on the child `[[]]` or
on the grandchild `[]`, so no level is observed in `before` on the grandchild. -/
theorem C8_grandchild_level_counterexample :
    hookTrace (.Vector [.Map [.Integer 1], .Vector [.Vector []]]) 0
      = [⟨.before, .Vector, .Vector [.Map [.Integer 1], .Vector [.Vector []]], 1⟩,
         ⟨.before, .Map, .Map [.Integer 1], 2⟩,
         ⟨.before, .Integer, .Integer 1, 2⟩, ⟨.after, .Integer, .Integer 1, 2⟩]
    ∧ (RecursiveVisitor.visit Recorder
        (some (.Vector [.Map [.Integer 1], .Vector [.Vector []]])) ⟨0, []⟩).isCompleted
        = false
    ∧ ¬ ∃ ev ∈ hookTrace (.Vector [.Map [.Integer 1], .Vector [.Vector []]]) 0,
        ev.node = .Vector [] ∨ ev.node = .Vector [.Vector []] := by
  refine ⟨rfl, rfl, ?_⟩
  have h : hookTrace (.Vector [.Map [.Integer 1], .Vector [.Vector []]]) 0
      = [⟨.before, .Vector, .Vector [.Map [.Integer 1], .Vector [.Vector []]], 1⟩,
         ⟨.before, .Map, .Map [.Integer 1], 2⟩,
         ⟨.before, .Integer, .Integer 1, 2⟩, ⟨.after, .Integer, .Integer 1, 2⟩] := rfl
  rw [h]
  simp

/-- C8 as amended: in a root `Vector` that has a child `Vector` that has a child
`Vector`, when the children before the child and the children before the
grandchild are traversed to the end (no `Map` with a child in them), the `before`
hook of the root runs with the counter at the starting level plus one and the
`before` hook of the grandchild runs with the counter exactly 2 greater. -/
theorem C8_grandchild_level (pre post pre2 post2 zs : List Expression) (startLevel : Int)
    (h1 : allMapsEmpty pre = true) (h2 : allMapsEmpty pre2 = true) :
    ∃ rest,
      hookTrace (.Vector (pre ++ .Vector (pre2 ++ .Vector zs :: post2) :: post)) startLevel
        = ⟨.before, .Vector, .Vector (pre ++ .Vector (pre2 ++ .Vector zs :: post2) :: post),
              startLevel + 1⟩
            :: ((pre.flatMap fun c => hookTrace c (startLevel + 1))
              ++ ⟨.before, .Vector, .Vector (pre2 ++ .Vector zs :: post2), startLevel + 1 + 1⟩
                :: ((pre2.flatMap fun c => hookTrace c (startLevel + 1 + 1))
                  ++ ⟨.before, .Vector, .Vector zs, startLevel + 1 + 2⟩ :: rest)) := by
  have e1 := handle_expression_Vector_descend pre post
    (.Vector (pre2 ++ .Vector zs :: post2)) ⟨startLevel, []⟩ h1
  have e2 := handle_expression_Vector_descend pre2 post2 (.Vector zs)
    ⟨startLevel + 1,
      [] ++ ⟨.before, .Vector,
          .Vector (pre ++ .Vector (pre2 ++ .Vector zs :: post2) :: post), startLevel + 1⟩
        :: (pre.flatMap fun c => hookTrace c (startLevel + 1))⟩ h2
  have e3 := handle_expression_Vector_enter zs
    ⟨startLevel + 1 + 1,
      ([] ++ ⟨.before, .Vector,
          .Vector (pre ++ .Vector (pre2 ++ .Vector zs :: post2) :: post), startLevel + 1⟩
        :: (pre.flatMap fun c => hookTrace c (startLevel + 1)))
      ++ ⟨.before, .Vector, .Vector (pre2 ++ .Vector zs :: post2), startLevel + 1 + 1⟩
        :: (pre2.flatMap fun c => hookTrace c (startLevel + 1 + 1))⟩
  obtain ⟨rest, hrest⟩ := (e3.trans e2).trans e1
  refine ⟨rest, ?_⟩
  have h3 : startLevel + 1 + 1 + 1 = startLevel + 1 + 2 := by ring
  rw [hookTrace, RecursiveVisitor.visit, ← hrest]
  simp [h3]

/-- C8 as amended, at the root `[1 [:k []] {1}]` started at level 5: the root is entered at
level 6, the grandchild at level 8. -/
theorem C8_grandchild_level_witness :
    allMapsEmpty [.Integer 1] = true ∧ allMapsEmpty [.Keyword "k"] = true
    ∧ ∃ rest,
      hookTrace (.Vector ([.Integer 1]
          ++ .Vector ([.Keyword "k"] ++ .Vector [] :: []) :: [.Map [.Integer 1]])) 5
        = ⟨.before, .Vector, .Vector ([.Integer 1]
              ++ .Vector ([.Keyword "k"] ++ .Vector [] :: []) :: [.Map [.Integer 1]]), 5 + 1⟩
            :: (([Expression.Integer 1].flatMap fun c => hookTrace c (5 + 1))
              ++ ⟨.before, .Vector, .Vector ([.Keyword "k"] ++ .Vector [] :: []), 5 + 1 + 1⟩
                :: (([Expression.Keyword "k"].flatMap fun c => hookTrace c (5 + 1 + 1))
                  ++ ⟨.before, .Vector, .Vector [], 5 + 1 + 2⟩ :: rest)) :=
  ⟨rfl, rfl,
    C8_grandchild_level [.Integer 1] [.Map [.Integer 1]] [.Keyword "k"] [] [] 5 rfl rfl⟩

/-- C9: `visit` on a null pointer returns at once; no hook is called and the
state, counter included, is as it was. -/
theorem C9_visit_null {σ : Type} (d : ExpressionVisitor σ) (s : RecursiveVisitor σ) :
    RecursiveVisitor.visit d none s = .completed s
    ∧ ∀ startLevel : Int,
        RecursiveVisitor.visit Recorder none ⟨startLevel, []⟩ = .completed ⟨startLevel, []⟩ :=
  ⟨rfl, fun _ => rfl⟩

/-- The characters `print` writes: a space unless `no_space` is set, the text, and
a line break exactly when the counter is 0; `no_space` is cleared. -/
theorem LoggingVisitor.print_eq (s : String) (level : Int) (v : LoggingVisitor) :
    LoggingVisitor.print s level v
      = ⟨false,
          if level = 0 then (if v.no_space then v.os else v.os ++ " ") ++ s ++ "\n"
          else (if v.no_space then v.os else v.os ++ " ") ++ s⟩ := by
  cases v with
  | mk ns os => cases ns <;> by_cases hl : level = 0 <;> simp [LoggingVisitor.print, hl]

/-- An overriding hook of `LoggingVisitor` run while the counter is not 0 writes
no line break. -/
theorem LoggingVisitor.hook_eq_of_ne_zero (r : Rendering) (h : Hook) (e : Expression)
    (level : Int) (v : LoggingVisitor) (hl : level ≠ 0) :
    LoggingVisitor.hook r h e level v
      = ⟨r.suppress h e, (if v.no_space then v.os else v.os ++ " ") ++ r.text h e⟩ := by
  rw [LoggingVisitor.hook, LoggingVisitor.print_eq]
  cases hs : r.suppress h e <;> simp [hl]

/-- An overriding hook of `LoggingVisitor` run while the counter is 0 ends its
output with a line break. -/
theorem LoggingVisitor.hook_eq_of_zero (r : Rendering) (h : Hook) (e : Expression)
    (v : LoggingVisitor) :
    LoggingVisitor.hook r h e 0 v
      = ⟨r.suppress h e, (if v.no_space then v.os else v.os ++ " ") ++ r.text h e ++ "\n"⟩ := by
  rw [LoggingVisitor.hook, LoggingVisitor.print_eq]
  cases hs : r.suppress h e <;> simp

/-- C10 (defect): a `LoggingVisitor` started at level 0, whatever its hooks hand
to `print`.  On a top-level `Symbolic`, `Set` or `Vector` node whose children are
traversed to the end, and on the empty `Map`, the `after` hook runs while the
counter is 1: the output ends with the text of that hook and no line break
follows it.  On a top-level atomic node (here an `Integer`) the text of the
`before` hook is followed by a line break. -/
theorem C10_no_line_break_after_container (r : Rendering) (v0 : LoggingVisitor)
    (inner : List Expression) (n : Int) (h : allMapsEmpty inner = true) :
    (∃ v1,
        RecursiveVisitor.for_each (LoggingVisitor.hooks r) inner
            ((RecursiveVisitor.incr ⟨0, v0⟩).before (LoggingVisitor.hooks r) .Symbolic (.Symbolic inner))
          = .completed ⟨1, v1⟩
        ∧ RecursiveVisitor.visit (LoggingVisitor.hooks r) (some (.Symbolic inner)) ⟨0, v0⟩
          = .completed ⟨0,
              ⟨r.suppress .after (.Symbolic inner),
                (if v1.no_space then v1.os else v1.os ++ " ") ++ r.text .after (.Symbolic inner)⟩⟩)
    ∧ (∃ v1,
        RecursiveVisitor.for_each (LoggingVisitor.hooks r) inner
            ((RecursiveVisitor.incr ⟨0, v0⟩).before (LoggingVisitor.hooks r) .Set (.Set inner))
          = .completed ⟨1, v1⟩
        ∧ RecursiveVisitor.visit (LoggingVisitor.hooks r) (some (.Set inner)) ⟨0, v0⟩
          = .completed ⟨0,
              ⟨r.suppress .after (.Set inner),
                (if v1.no_space then v1.os else v1.os ++ " ") ++ r.text .after (.Set inner)⟩⟩)
    ∧ (∃ v1,
        RecursiveVisitor.for_each (LoggingVisitor.hooks r) inner
            ((RecursiveVisitor.incr ⟨0, v0⟩).before (LoggingVisitor.hooks r) .Vector (.Vector inner))
          = .completed ⟨1, v1⟩
        ∧ RecursiveVisitor.visit (LoggingVisitor.hooks r) (some (.Vector inner)) ⟨0, v0⟩
          = .completed ⟨0,
              ⟨r.suppress .after (.Vector inner),
                (if v1.no_space then v1.os else v1.os ++ " ") ++ r.text .after (.Vector inner)⟩⟩)
    ∧ RecursiveVisitor.visit (LoggingVisitor.hooks r) (some (.Map [])) ⟨0, v0⟩
        = .completed ⟨0,
            ⟨r.suppress .after (.Map []),
              (if r.suppress .before (.Map []) then
                  (if v0.no_space then v0.os else v0.os ++ " ") ++ r.text .before (.Map [])
                else (if v0.no_space then v0.os else v0.os ++ " ") ++ r.text .before (.Map [])
                  ++ " ")
                ++ r.text .after (.Map [])⟩⟩
    ∧ RecursiveVisitor.visit (LoggingVisitor.hooks r) (some (.Integer n)) ⟨0, v0⟩
        = .completed ⟨0,
            ⟨r.suppress .before (.Integer n),
              (if v0.no_space then v0.os else v0.os ++ " ") ++ r.text .before (.Integer n)
                ++ "\n"⟩⟩ := by
  refine ⟨?_, ?_, ?_, ?_, ?_⟩
  · obtain ⟨v1, h1⟩ := for_each_completes (LoggingVisitor.hooks r) inner
      ((RecursiveVisitor.incr ⟨0, v0⟩).before (LoggingVisitor.hooks r) .Symbolic
        (.Symbolic inner)) h
    refine ⟨v1, h1, ?_⟩
    simp only [RecursiveVisitor.visit, RecursiveVisitor.handle_expression, h1,
      Outcome.andThen]
    simp [RecursiveVisitor.after, RecursiveVisitor.decr, RecursiveVisitor.before,
      RecursiveVisitor.incr, LoggingVisitor.hooks, LoggingVisitor.hook_eq_of_ne_zero]
  · obtain ⟨v1, h1⟩ := for_each_completes (LoggingVisitor.hooks r) inner
      ((RecursiveVisitor.incr ⟨0, v0⟩).before (LoggingVisitor.hooks r) .Set (.Set inner)) h
    refine ⟨v1, h1, ?_⟩
    simp only [RecursiveVisitor.visit, RecursiveVisitor.handle_expression, h1,
      Outcome.andThen]
    simp [RecursiveVisitor.after, RecursiveVisitor.decr, RecursiveVisitor.before,
      RecursiveVisitor.incr, LoggingVisitor.hooks, LoggingVisitor.hook_eq_of_ne_zero]
  · obtain ⟨v1, h1⟩ := for_each_completes (LoggingVisitor.hooks r) inner
      ((RecursiveVisitor.incr ⟨0, v0⟩).before (LoggingVisitor.hooks r) .Vector
        (.Vector inner)) h
    refine ⟨v1, h1, ?_⟩
    simp only [RecursiveVisitor.visit, RecursiveVisitor.handle_expression, h1,
      Outcome.andThen]
    simp [RecursiveVisitor.after, RecursiveVisitor.decr, RecursiveVisitor.before,
      RecursiveVisitor.incr, LoggingVisitor.hooks, LoggingVisitor.hook_eq_of_ne_zero]
  · simp only [RecursiveVisitor.visit, RecursiveVisitor.handle_expression, map_loop_nil,
      Outcome.andThen]
    cases hs : r.suppress .before (.Map []) <;>
      simp [RecursiveVisitor.after, RecursiveVisitor.decr, RecursiveVisitor.before,
        RecursiveVisitor.incr, LoggingVisitor.hooks, LoggingVisitor.hook_eq_of_ne_zero, hs]
  · simp [RecursiveVisitor.visit, RecursiveVisitor.handle_expression,
      RecursiveVisitor.after, RecursiveVisitor.before, LoggingVisitor.hooks,
      LoggingVisitor.hook_eq_of_zero]

/-- C10, at the top-level vector `[:a 1]` and the top-level integer `1`, printed
from level 0 onto an empty stream: the vector ends without a line break, the
integer with one. -/
theorem C10_no_line_break_after_container_witness :
    allMapsEmpty [.Keyword "a", .Integer 1] = true
    ∧ RecursiveVisitor.visit (LoggingVisitor.hooks sampleRendering)
        (some (.Vector [.Keyword "a", .Integer 1])) ⟨0, ⟨false, ""⟩⟩
        = .completed ⟨0, ⟨false, " [ :a 1 ]"⟩⟩
    ∧ RecursiveVisitor.visit (LoggingVisitor.hooks sampleRendering)
        (some (.Integer 1)) ⟨0, ⟨false, ""⟩⟩
        = .completed ⟨0, ⟨false, " 1\n"⟩⟩ := by
  have key := C10_no_line_break_after_container sampleRendering ⟨false, ""⟩
    [.Keyword "a", .Integer 1] 1 rfl
  refine ⟨rfl, ?_, key.2.2.2.2⟩
  obtain ⟨v1, h1, h2⟩ := key.2.2.1
  have hv : Outcome.completed ⟨1, v1⟩
      = Outcome.completed ⟨1, (⟨false, " [ :a 1"⟩ : LoggingVisitor)⟩ := h1.symm.trans rfl
  cases hv
  exact h2

/-! ## The node classes -/

/-- C11: for each of the ten classes of `reader_expressions.hpp`, `type()` of a
node is the tag of the same name whatever the payload, and the ten tags are
pairwise different, so nodes of two different classes never report the same
tag. -/
theorem C11_type_tags (str : String) (n m : Int) (x : Double) (inner : List Expression) :
    (Expression.Keyword str).type = .Keyword
    ∧ (Expression.Integer n).type = .Integer
    ∧ (Expression.Float x).type = .Float
    ∧ (Expression.Ratio n m).type = .Ratio
    ∧ (Expression.Literal str).type = .Literal
    ∧ (Expression.Symbolic inner).type = .Symbolic
    ∧ (Expression.Map inner).type = .Map
    ∧ (Expression.Set inner).type = .Set
    ∧ (Expression.String str).type = .String
    ∧ (Expression.Vector inner).type = .Vector
    ∧ [(Expression.Keyword str).type,
        (Expression.Integer n).type,
        (Expression.Float x).type,
        (Expression.Ratio n m).type,
        (Expression.Literal str).type,
        (Expression.Symbolic inner).type,
        (Expression.Map inner).type,
        (Expression.Set inner).type,
        (Expression.String str).type,
        (Expression.Vector inner).type].Nodup := by
  refine ⟨rfl, rfl, rfl, rfl, rfl, rfl, rfl, rfl, rfl, rfl, ?_⟩
  simp [Expression.type]

/-- C12: for all integers `n` and `d`, zero and common factors included, the
constructor of `Ratio` yields a `Ratio` node whose numerator is `n` and whose
denominator is `d`; nothing is reduced (2/4 and 1/2 are different nodes) and a
zero denominator is stored as it is. -/
theorem C12_ratio_stored (n d : Int) :
    (Ratio.new n d).type = .Ratio
    ∧ (Ratio.new n d).numerator = some n
    ∧ (Ratio.new n d).denominator = some d
    ∧ (Ratio.new n 0).denominator = some 0
    ∧ (Ratio.new 2 4).numerator = some 2 ∧ (Ratio.new 2 4).denominator = some 4
    ∧ Ratio.new 2 4 ≠ Ratio.new 1 2 := by
  refine ⟨rfl, rfl, rfl, rfl, rfl, rfl, ?_⟩
  simp [Ratio.new]

/-- C13: for every string, level and printer state, `print` writes one space
before the string exactly when `no_space` was clear on entry and none when it
was set, then the string (and a line break when the level is 0), and returns
with `no_space` clear; so a second `print` right after always writes its
space. -/
theorem C13_print_space_single_use (s s2 : String) (level level2 : Int)
    (v : LoggingVisitor) :
    (LoggingVisitor.print s level v).no_space = false
    ∧ (LoggingVisitor.print s level v).os
        = v.os ++ (if v.no_space then "" else " ") ++ s
            ++ (if level = 0 then "\n" else "")
    ∧ (LoggingVisitor.print s2 level2 (LoggingVisitor.print s level v)).os
        = (LoggingVisitor.print s level v).os ++ " " ++ s2
            ++ (if level2 = 0 then "\n" else "")
    ∧ (LoggingVisitor.print s2 level2 (LoggingVisitor.print s level v)).no_space = false := by
  refine ⟨?_, ?_, ?_, ?_⟩
  · rw [LoggingVisitor.print_eq]
  · rw [LoggingVisitor.print_eq]
    cases v with
    | mk ns os => cases ns <;> by_cases hl : level = 0 <;> simp [hl]
  · rw [LoggingVisitor.print_eq s2, LoggingVisitor.print_eq s]
    by_cases hl : level2 = 0 <;> simp [hl]
  · rw [LoggingVisitor.print_eq s2]

/-! ## Level balance and the depth formula -/

section Depth

variable {σ : Type}

/-- A branch that returns leaves the counter at its entry value. -/
theorem handle_expression_completed_level (d : ExpressionVisitor σ) (e : Expression)
    (s s1 : RecursiveVisitor σ)
    (h : RecursiveVisitor.handle_expression d e s = .completed s1) : s1.level = s.level := by
  cases hm : e.mapsEmpty with
  | true =>
      obtain ⟨st, hst⟩ := handle_expression_completes d e s hm
      rw [hst] at h
      cases h
      rfl
  | false =>
      obtain ⟨s2, hs2⟩ := handle_expression_not_completes d e s hm
      rw [hs2] at h
      cases h

/-- A `for` loop that returns leaves the counter at its entry value. -/
theorem for_each_completed_level (d : ExpressionVisitor σ) (l : List Expression)
    (s s1 : RecursiveVisitor σ)
    (h : RecursiveVisitor.for_each d l s = .completed s1) : s1.level = s.level := by
  cases hm : allMapsEmpty l with
  | true =>
      obtain ⟨st, hst⟩ := for_each_completes d l s hm
      rw [hst] at h
      cases h
      rfl
  | false =>
      obtain ⟨s2, hs2⟩ := for_each_not_completes d l s hm
      rw [hs2] at h
      cases h

/-- A `Map` loop that returns was run on the empty sequence. -/
theorem map_loop_completed (d : ExpressionVisitor σ) (l : List Expression)
    (s s1 : RecursiveVisitor σ)
    (h : RecursiveVisitor.map_loop d l s = .completed s1) : l = [] ∧ s1 = s := by
  cases l with
  | nil =>
      rw [map_loop_nil] at h
      cases h
      exact ⟨rfl, rfl⟩
  | cons x rest =>
      obtain ⟨s2, hs2⟩ := map_loop_pastEnd d rest x s
      rw [hs2] at h
      cases h

/-- Every run is of one of two kinds: it returns with the counter at its entry
value, which happens when every `Map` node of the tree is empty, or the tree has
a `Map` node with a child and the run ends by dereferencing `end()`. -/
theorem visit_returns_balanced_or_pastEnd (d : ExpressionVisitor σ) (e : Expression)
    (s : RecursiveVisitor σ) :
    (e.mapsEmpty = true
        ∧ ∃ st, RecursiveVisitor.visit d (some e) s = .completed ⟨s.level, st⟩)
    ∨ (e.mapsEmpty = false ∧ ∃ s1, RecursiveVisitor.visit d (some e) s = .pastEnd s1) := by
  cases hm : e.mapsEmpty with
  | true => exact Or.inl ⟨rfl, handle_expression_completes d e s hm⟩
  | false => exact Or.inr ⟨rfl, handle_expression_not_completes d e s hm⟩

/-- What leaving a container adds to the log of the recorder: the `after` call,
at the level the loop ended with. -/
theorem leave_mem (r : Outcome (List Event)) (o : Overload) (e : Expression) (lvl : Int)
    (hlvl : ∀ s1, r = .completed s1 → s1.level = lvl) (ev : Event)
    (hev : ev ∈ (r.andThen fun s1 =>
        .completed ((s1.after Recorder o e).decr)).state.derived) :
    ev ∈ r.state.derived ∨ ev = ⟨.after, o, e, lvl⟩ := by
  cases r with
  | pastEnd s1 => exact Or.inl hev
  | completed s1 =>
      have hl := hlvl s1 rfl
      simp only [Outcome.andThen, Outcome.state, RecursiveVisitor.after,
        RecursiveVisitor.decr, Recorder, List.mem_append, List.mem_singleton] at hev
      rcases hev with hev | hev
      · exact Or.inl hev
      · exact Or.inr (by rw [hev, hl])

/-- The level at which a container is entered, for a node with `k` recursive
ancestors, is the level of a node with `k + 1` recursive ancestors. -/
theorem enter_level (o : Overload) (e : Expression) (L : Int) (k : Nat)
    (s : RecursiveVisitor (List Event)) (hs : s.level = L + k) :
    ((s.incr).before Recorder o e).level = L + ((k + 1 : Nat) : Int) := by
  simp only [RecursiveVisitor.before, RecursiveVisitor.incr, hs]
  push_cast
  ring

theorem enter_level_succ (o : Overload) (e : Expression) (L : Int) (k : Nat)
    (s : RecursiveVisitor (List Event)) (hs : s.level = L + k) :
    ((s.incr).before Recorder o e).level = L + k + 1 := by
  simp only [RecursiveVisitor.before, RecursiveVisitor.incr, hs]

/-- The log of the recorder on a container, given what its loop adds to the
log. -/
theorem container_mem (o : Overload) (e : Expression) (inner : List Expression) (L : Int)
    (k : Nat) (s : RecursiveVisitor (List Event)) (hs : s.level = L + k)
    (r : Outcome (List Event))
    (hlvl : ∀ s1, r = .completed s1 → s1.level = L + k + 1)
    (hmem : ∀ ev ∈ r.state.derived,
      ev ∈ ((s.incr).before Recorder o e).derived ∨ ev ∈ depthEventsList L (k + 1) inner)
    (ev : Event)
    (hev : ev ∈ (r.andThen fun s1 =>
        .completed ((s1.after Recorder o e).decr)).state.derived) :
    ev ∈ s.derived
      ∨ ev ∈ (⟨.before, o, e, L + k + 1⟩
          :: (depthEventsList L (k + 1) inner ++ [⟨.after, o, e, L + k + 1⟩])) := by
  rcases leave_mem r o e (L + k + 1) hlvl ev hev with h | h
  · rcases hmem ev h with h | h
    · simp only [RecursiveVisitor.before, RecursiveVisitor.incr, Recorder, List.mem_append,
        List.mem_singleton, hs] at h
      rcases h with h | h
      · exact Or.inl h
      · exact Or.inr (by simp [h])
    · exact Or.inr (by simp [h])
  · exact Or.inr (by simp [h])

mutual
/-- Safety of the depth formula: every hook call the recorder logs on a tree
whose root has `k` recursive ancestors is a call of the depth formula, whether
or not the run returns. -/
theorem handle_expression_mem_depthEvents :
    ∀ (e : Expression) (L : Int) (k : Nat) (s : RecursiveVisitor (List Event)),
      s.level = L + k →
      ∀ ev ∈ (RecursiveVisitor.handle_expression Recorder e s).state.derived,
        ev ∈ s.derived ∨ ev ∈ depthEvents L k e
  | .Keyword _, L, k, s, hs, ev, hev => by
      simp only [RecursiveVisitor.handle_expression, Outcome.state, RecursiveVisitor.after,
        RecursiveVisitor.before, Recorder, List.mem_append, List.mem_singleton, hs] at hev
      simp only [depthEvents, List.mem_cons, List.mem_singleton]
      tauto
  | .Integer _, L, k, s, hs, ev, hev => by
      simp only [RecursiveVisitor.handle_expression, Outcome.state, RecursiveVisitor.after,
        RecursiveVisitor.before, Recorder, List.mem_append, List.mem_singleton, hs] at hev
      simp only [depthEvents, List.mem_cons, List.mem_singleton]
      tauto
  | .Float _, L, k, s, hs, ev, hev => by
      simp only [RecursiveVisitor.handle_expression, Outcome.state, RecursiveVisitor.after,
        RecursiveVisitor.before, Recorder, List.mem_append, List.mem_singleton, hs] at hev
      simp only [depthEvents, List.mem_cons, List.mem_singleton]
      tauto
  | .Ratio _ _, L, k, s, hs, ev, hev => by
      simp only [RecursiveVisitor.handle_expression, Outcome.state, RecursiveVisitor.after,
        RecursiveVisitor.before, Recorder, List.mem_append, List.mem_singleton, hs] at hev
      simp only [depthEvents, List.mem_cons, List.mem_singleton]
      tauto
  | .Symbol _, L, k, s, hs, ev, hev => by
      simp only [RecursiveVisitor.handle_expression, Outcome.state, RecursiveVisitor.after,
        RecursiveVisitor.before, Recorder, List.mem_append, List.mem_singleton, hs] at hev
      simp only [depthEvents, List.mem_cons, List.mem_singleton]
      tauto
  | .String _, L, k, s, hs, ev, hev => by
      simp only [RecursiveVisitor.handle_expression, Outcome.state, RecursiveVisitor.after,
        RecursiveVisitor.before, Recorder, List.mem_append, List.mem_singleton, hs] at hev
      simp only [depthEvents, List.mem_cons, List.mem_singleton]
      tauto
  | .Literal _, _, _, _, _, _, hev => Or.inl hev
  | .Symbolic inner, L, k, s, hs, ev, hev => by
      simp only [RecursiveVisitor.handle_expression] at hev
      simp only [depthEvents]
      refine container_mem .Symbolic (.Symbolic inner) inner L k s hs _ (fun s1 h1 => ?_)
        (fun ev2 h2 => for_each_mem_depthEvents inner L (k + 1) _ (enter_level .Symbolic _ L k s hs)
          ev2 h2) ev hev
      rw [for_each_completed_level _ _ _ _ h1]; exact enter_level_succ _ _ L k s hs
  | .Map inner, L, k, s, hs, ev, hev => by
      simp only [RecursiveVisitor.handle_expression] at hev
      simp only [depthEvents]
      refine container_mem .Map (.Map inner) inner L k s hs _ (fun s1 h1 => ?_)
        (fun ev2 h2 => map_loop_mem_depthEvents inner L (k + 1) _ (enter_level .Map _ L k s hs)
          ev2 h2) ev hev
      rw [(map_loop_completed _ _ _ _ h1).2]; exact enter_level_succ _ _ L k s hs
  | .Set inner, L, k, s, hs, ev, hev => by
      simp only [RecursiveVisitor.handle_expression] at hev
      simp only [depthEvents]
      refine container_mem .Set (.Set inner) inner L k s hs _ (fun s1 h1 => ?_)
        (fun ev2 h2 => for_each_mem_depthEvents inner L (k + 1) _ (enter_level .Set _ L k s hs)
          ev2 h2) ev hev
      rw [for_each_completed_level _ _ _ _ h1]; exact enter_level_succ _ _ L k s hs
  | .Vector inner, L, k, s, hs, ev, hev => by
      simp only [RecursiveVisitor.handle_expression] at hev
      simp only [depthEvents]
      refine container_mem .Vector (.Vector inner) inner L k s hs _ (fun s1 h1 => ?_)
        (fun ev2 h2 => for_each_mem_depthEvents inner L (k + 1) _ (enter_level .Vector _ L k s hs)
          ev2 h2) ev hev
      rw [for_each_completed_level _ _ _ _ h1]; exact enter_level_succ _ _ L k s hs
theorem for_each_mem_depthEvents :
    ∀ (l : List Expression) (L : Int) (k : Nat) (s : RecursiveVisitor (List Event)),
      s.level = L + k →
      ∀ ev ∈ (RecursiveVisitor.for_each Recorder l s).state.derived,
        ev ∈ s.derived ∨ ev ∈ depthEventsList L k l
  | [], _, _, _, _, _, hev => Or.inl hev
  | x :: rest, L, k, s, hs, ev, hev => by
      rw [for_each_cons] at hev
      simp only [depthEventsList, List.mem_append]
      have hx := handle_expression_mem_depthEvents x L k s hs
      cases hr : RecursiveVisitor.handle_expression Recorder x s with
      | pastEnd s1 =>
          rw [hr] at hev hx
          rcases hx ev hev with h | h
          · exact Or.inl h
          · exact Or.inr (Or.inl h)
      | completed s1 =>
          rw [hr] at hev hx
          have hl : s1.level = L + k := by
            rw [handle_expression_completed_level _ _ _ _ hr, hs]
          rcases for_each_mem_depthEvents rest L k s1 hl ev hev with h | h
          · rcases hx ev h with h | h
            · exact Or.inl h
            · exact Or.inr (Or.inl h)
          · exact Or.inr (Or.inr h)
theorem map_loop_mem_depthEvents :
    ∀ (l : List Expression) (L : Int) (k : Nat) (s : RecursiveVisitor (List Event)),
      s.level = L + k →
      ∀ ev ∈ (RecursiveVisitor.map_loop Recorder l s).state.derived,
        ev ∈ s.derived ∨ ev ∈ depthEventsList L k l
  | [], _, _, _, _, _, hev => Or.inl hev
  | [x], L, k, s, hs, ev, hev => by
      rw [map_loop_single] at hev
      simp only [depthEventsList, List.mem_append]
      have hx := handle_expression_mem_depthEvents x L k s hs
      cases hr : RecursiveVisitor.handle_expression Recorder x s with
      | pastEnd s1 =>
          rw [hr] at hev hx
          rcases hx ev hev with h | h
          · exact Or.inl h
          · exact Or.inr (Or.inl h)
      | completed s1 =>
          rw [hr] at hev hx
          rcases hx ev hev with h | h
          · exact Or.inl h
          · exact Or.inr (Or.inl h)
  | x :: y :: rest, L, k, s, hs, ev, hev => by
      rw [map_loop_cons_cons] at hev
      have hx := handle_expression_mem_depthEvents x L k s hs
      have hgoal : ∀ ev2, (ev2 ∈ s.derived ∨ ev2 ∈ depthEvents L k x)
          ∨ ev2 ∈ depthEventsList L k (y :: rest) →
          ev2 ∈ s.derived ∨ ev2 ∈ depthEventsList L k (x :: y :: rest) := by
        intro ev2 h
        rw [depthEventsList, List.mem_append]
        tauto
      cases hr : RecursiveVisitor.handle_expression Recorder x s with
      | pastEnd s1 =>
          rw [hr] at hev hx
          exact hgoal ev (Or.inl (hx ev hev))
      | completed s1 =>
          rw [hr] at hev hx
          have hl : s1.level = L + k := by
            rw [handle_expression_completed_level _ _ _ _ hr, hs]
          have hy := handle_expression_mem_depthEvents y L k s1 hl
          have hy2 : ∀ ev2, ev2 ∈ depthEvents L k y → ev2 ∈ depthEventsList L k (y :: rest) := by
            intro ev2 h
            rw [depthEventsList, List.mem_append]
            exact Or.inl h
          rw [Outcome.andThen_completed] at hev
          cases hr2 : RecursiveVisitor.handle_expression Recorder y s1 with
          | pastEnd s2 =>
              rw [hr2] at hev hy
              rcases hy ev hev with h | h
              · exact hgoal ev (Or.inl (hx ev h))
              · exact hgoal ev (Or.inr (hy2 ev h))
          | completed s2 =>
              rw [hr2] at hev hy
              have hl2 : s2.level = L + k := by
                rw [handle_expression_completed_level _ _ _ _ hr2, hl]
              rw [Outcome.andThen_completed] at hev
              rcases map_loop_mem_depthEvents (y :: rest) L k s2 hl2 ev hev with h | h
              · rcases hy ev h with h | h
                · exact hgoal ev (Or.inl (hx ev h))
                · exact hgoal ev (Or.inr (hy2 ev h))
              · exact hgoal ev (Or.inr h)
end

mutual
/-- On a tree whose `Map` nodes are all empty the hook trace is the list of calls
of the depth formula. -/
theorem hookTrace_eq_depthEvents :
    ∀ (e : Expression) (L : Int) (k : Nat), e.mapsEmpty = true →
      hookTrace e (L + k) = depthEvents L k e
  | .Keyword _, _, _, _ => rfl
  | .Integer _, _, _, _ => rfl
  | .Float _, _, _, _ => rfl
  | .Ratio _ _, _, _, _ => rfl
  | .Symbol _, _, _, _ => rfl
  | .String _, _, _, _ => rfl
  | .Literal _, _, _, _ => rfl
  | .Map [], L, k, _ => by
      simp [hookTrace, RecursiveVisitor.visit, RecursiveVisitor.handle_expression,
        map_loop_nil, Outcome.andThen, Outcome.state, RecursiveVisitor.after,
        RecursiveVisitor.decr, RecursiveVisitor.before, RecursiveVisitor.incr, Recorder,
        depthEvents, depthEventsList]
  | .Map (_ :: _), _, _, h => by simp [Expression.mapsEmpty] at h
  | .Symbolic inner, L, k, h => by
      have hin : allMapsEmpty inner = true := by simpa [Expression.mapsEmpty] using h
      have ih := flatMap_hookTrace_eq_depthEventsList inner L (k + 1) hin
      have hc : L + ((k + 1 : Nat) : Int) = L + k + 1 := by push_cast; ring
      rw [hc] at ih
      simp only [hookTrace, RecursiveVisitor.visit, RecursiveVisitor.handle_expression]
      rw [for_each_Recorder inner _ hin, Outcome.andThen_completed]
      simp [Outcome.state, RecursiveVisitor.after, RecursiveVisitor.decr,
        RecursiveVisitor.before, RecursiveVisitor.incr, Recorder, depthEvents, ih]
  | .Set inner, L, k, h => by
      have hin : allMapsEmpty inner = true := by simpa [Expression.mapsEmpty] using h
      have ih := flatMap_hookTrace_eq_depthEventsList inner L (k + 1) hin
      have hc : L + ((k + 1 : Nat) : Int) = L + k + 1 := by push_cast; ring
      rw [hc] at ih
      simp only [hookTrace, RecursiveVisitor.visit, RecursiveVisitor.handle_expression]
      rw [for_each_Recorder inner _ hin, Outcome.andThen_completed]
      simp [Outcome.state, RecursiveVisitor.after, RecursiveVisitor.decr,
        RecursiveVisitor.before, RecursiveVisitor.incr, Recorder, depthEvents, ih]
  | .Vector inner, L, k, h => by
      have hin : allMapsEmpty inner = true := by simpa [Expression.mapsEmpty] using h
      have ih := flatMap_hookTrace_eq_depthEventsList inner L (k + 1) hin
      have hc : L + ((k + 1 : Nat) : Int) = L + k + 1 := by push_cast; ring
      rw [hc] at ih
      simp only [hookTrace, RecursiveVisitor.visit, RecursiveVisitor.handle_expression]
      rw [for_each_Recorder inner _ hin, Outcome.andThen_completed]
      simp [Outcome.state, RecursiveVisitor.after, RecursiveVisitor.decr,
        RecursiveVisitor.before, RecursiveVisitor.incr, Recorder, depthEvents, ih]
theorem flatMap_hookTrace_eq_depthEventsList :
    ∀ (l : List Expression) (L : Int) (k : Nat), allMapsEmpty l = true →
      (l.flatMap fun c => hookTrace c (L + k)) = depthEventsList L k l
  | [], _, _, _ => rfl
  | x :: rest, L, k, h => by
      have hx : x.mapsEmpty = true ∧ allMapsEmpty rest = true := by
        simpa [allMapsEmpty] using h
      rw [List.flatMap_cons, hookTrace_eq_depthEvents x L k hx.1,
        flatMap_hookTrace_eq_depthEventsList rest L k hx.2, depthEventsList]
end

mutual
/-- No call of the depth formula on a tree whose root has `k` recursive
ancestors is at a level below `L + k`. -/
theorem depthEvents_level_ge :
    ∀ (e : Expression) (L : Int) (k : Nat) (ev : Event),
      ev ∈ depthEvents L k e → L + k ≤ ev.level
  | .Keyword _, L, k, ev, h => by
      simp only [depthEvents, List.mem_cons, List.mem_singleton, List.mem_nil_iff,
        or_false] at h
      rcases h with h | h <;> rw [h]
  | .Integer _, L, k, ev, h => by
      simp only [depthEvents, List.mem_cons, List.mem_singleton, List.mem_nil_iff,
        or_false] at h
      rcases h with h | h <;> rw [h]
  | .Float _, L, k, ev, h => by
      simp only [depthEvents, List.mem_cons, List.mem_singleton, List.mem_nil_iff,
        or_false] at h
      rcases h with h | h <;> rw [h]
  | .Ratio _ _, L, k, ev, h => by
      simp only [depthEvents, List.mem_cons, List.mem_singleton, List.mem_nil_iff,
        or_false] at h
      rcases h with h | h <;> rw [h]
  | .Symbol _, L, k, ev, h => by
      simp only [depthEvents, List.mem_cons, List.mem_singleton, List.mem_nil_iff,
        or_false] at h
      rcases h with h | h <;> rw [h]
  | .String _, L, k, ev, h => by
      simp only [depthEvents, List.mem_cons, List.mem_singleton, List.mem_nil_iff,
        or_false] at h
      rcases h with h | h <;> rw [h]
  | .Literal _, _, _, _, h => by simp [depthEvents] at h
  | .Symbolic inner, L, k, ev, h => by
      have ih := depthEventsList_level_ge inner L (k + 1) ev
      simp only [depthEvents, List.mem_cons, List.mem_append, List.mem_nil_iff,
        or_false] at h
      rcases h with h | h | h
      · rw [h]; simp
      · have := ih h
        push_cast at this
        omega
      · rw [h]; simp
  | .Map inner, L, k, ev, h => by
      have ih := depthEventsList_level_ge inner L (k + 1) ev
      simp only [depthEvents, List.mem_cons, List.mem_append, List.mem_nil_iff,
        or_false] at h
      rcases h with h | h | h
      · rw [h]; simp
      · have := ih h
        push_cast at this
        omega
      · rw [h]; simp
  | .Set inner, L, k, ev, h => by
      have ih := depthEventsList_level_ge inner L (k + 1) ev
      simp only [depthEvents, List.mem_cons, List.mem_append, List.mem_nil_iff,
        or_false] at h
      rcases h with h | h | h
      · rw [h]; simp
      · have := ih h
        push_cast at this
        omega
      · rw [h]; simp
  | .Vector inner, L, k, ev, h => by
      have ih := depthEventsList_level_ge inner L (k + 1) ev
      simp only [depthEvents, List.mem_cons, List.mem_append, List.mem_nil_iff,
        or_false] at h
      rcases h with h | h | h
      · rw [h]; simp
      · have := ih h
        push_cast at this
        omega
      · rw [h]; simp
theorem depthEventsList_level_ge :
    ∀ (l : List Expression) (L : Int) (k : Nat) (ev : Event),
      ev ∈ depthEventsList L k l → L + k ≤ ev.level
  | [], _, _, _, h => by simp [depthEventsList] at h
  | x :: rest, L, k, ev, h => by
      simp only [depthEventsList, List.mem_append] at h
      rcases h with h | h
      · exact depthEvents_level_ge x L k ev h
      · exact depthEventsList_level_ge rest L k ev h
end

/-- Every call of the depth formula on a recursive node with `k` recursive
ancestors, the calls on its descendants included, is at level `L + k + 1` or
above. -/
theorem depthEvents_level_gt_of_isRecursive (e : Expression) (L : Int) (k : Nat)
    (hrec : e.isRecursive = true) (ev : Event) (h : ev ∈ depthEvents L k e) :
    L + k + 1 ≤ ev.level := by
  cases e with
  | Symbolic inner =>
      simp only [depthEvents, List.mem_cons, List.mem_append, List.mem_nil_iff,
        or_false] at h
      rcases h with h | h | h
      · rw [h]
      · have := depthEventsList_level_ge inner L (k + 1) ev h
        push_cast at this
        omega
      · rw [h]
  | Map inner =>
      simp only [depthEvents, List.mem_cons, List.mem_append, List.mem_nil_iff,
        or_false] at h
      rcases h with h | h | h
      · rw [h]
      · have := depthEventsList_level_ge inner L (k + 1) ev h
        push_cast at this
        omega
      · rw [h]
  | Set inner =>
      simp only [depthEvents, List.mem_cons, List.mem_append, List.mem_nil_iff,
        or_false] at h
      rcases h with h | h | h
      · rw [h]
      · have := depthEventsList_level_ge inner L (k + 1) ev h
        push_cast at this
        omega
      · rw [h]
  | Vector inner =>
      simp only [depthEvents, List.mem_cons, List.mem_append, List.mem_nil_iff,
        or_false] at h
      rcases h with h | h | h
      · rw [h]
      · have := depthEventsList_level_ge inner L (k + 1) ev h
        push_cast at this
        omega
      · rw [h]
  | Keyword _ => simp [Expression.isRecursive] at hrec
  | Integer _ => simp [Expression.isRecursive] at hrec
  | Float _ => simp [Expression.isRecursive] at hrec
  | Ratio _ _ => simp [Expression.isRecursive] at hrec
  | Literal _ => simp [Expression.isRecursive] at hrec
  | Symbol _ => simp [Expression.isRecursive] at hrec
  | String _ => simp [Expression.isRecursive] at hrec

end Depth

/-- C14 (defect): level balance fails on a well-formed tree with a `Map` that has
children.  On the vector `[{:a 1}]`, in which the only `Map` has two children,
the run started at level 0 does not return and leaves the counter at 2.  For
every visitor, tree and state a run either returns with the counter at its
entry value, which happens exactly on the trees whose `Map` nodes are all empty,
or ends by dereferencing `end()`. -/
theorem C14_level_balance_defect :
    (Expression.Vector [.Map [.Keyword "a", .Integer 1]]).mapsEven = true
    ∧ (RecursiveVisitor.visit Recorder
          (some (.Vector [.Map [.Keyword "a", .Integer 1]])) ⟨0, []⟩).isCompleted = false
    ∧ (RecursiveVisitor.visit Recorder
          (some (.Vector [.Map [.Keyword "a", .Integer 1]])) ⟨0, []⟩).state.level = 2
    ∧ (∀ (σ : Type) (d : ExpressionVisitor σ) (e : Expression) (s : RecursiveVisitor σ),
        (e.mapsEmpty = true
            ∧ ∃ st, RecursiveVisitor.visit d (some e) s = .completed ⟨s.level, st⟩)
        ∨ (e.mapsEmpty = false
            ∧ ∃ s1, RecursiveVisitor.visit d (some e) s = .pastEnd s1)) :=
  ⟨rfl, rfl, rfl, fun _ d e s => visit_returns_balanced_or_pastEnd d e s⟩

/-- C15, refuted at the vector `[nil]` with the literal `nil`, started at level
3: the hooks of the vector run at level 4, and no hook is called on the literal,
which therefore observes no level. -/
theorem C15_literal_counterexample :
    (Expression.Vector [.Literal "nil"]).mapsEven = true
    ∧ hookTrace (.Vector [.Literal "nil"]) 3
        = [⟨.before, .Vector, .Vector [.Literal "nil"], 4⟩,
           ⟨.after, .Vector, .Vector [.Literal "nil"], 4⟩]
    ∧ ¬ ∃ ev ∈ hookTrace (.Vector [.Literal "nil"]) 3, ev.node = .Literal "nil" := by
  refine ⟨rfl, rfl, ?_⟩
  have h : hookTrace (.Vector [.Literal "nil"]) 3
      = [⟨.before, .Vector, .Vector [.Literal "nil"], 4⟩,
         ⟨.after, .Vector, .Vector [.Literal "nil"], 4⟩] := rfl
  rw [h]
  simp

/-- C15 as amended: in a traversal started at level `L`, every hook call that is
made follows the depth formula: on a recursive node with `k` recursive ancestors
it runs at level `L + k + 1`, on a `Keyword`, `Integer`, `Float`, `Ratio`,
`Symbol` or `String` node with `k` recursive ancestors at level `L + k`, and a
`Literal` node gets no call.  When every `Map` node of the tree is empty the run
returns and its hook calls are exactly the `before` and `after` call of the
formula for each node other than a `Literal`.  No hook of a recursive root, its
`after` hook included, runs at level `L`: all run at `L + 1` or above. -/
theorem C15_depth_formula (e : Expression) (L : Int) :
    (∀ ev ∈ hookTrace e L, ev ∈ depthEvents L 0 e)
    ∧ (e.mapsEmpty = true →
        RecursiveVisitor.visit Recorder (some e) ⟨L, []⟩
          = .completed ⟨L, depthEvents L 0 e⟩)
    ∧ (e.isRecursive = true → ∀ ev ∈ hookTrace e L, L + 1 ≤ ev.level) := by
  have hsafe : ∀ ev ∈ hookTrace e L, ev ∈ depthEvents L 0 e := by
    intro ev hev
    rcases handle_expression_mem_depthEvents e L 0 ⟨L, []⟩ (by simp) ev hev with h | h
    · simp at h
    · exact h
  refine ⟨hsafe, ?_, ?_⟩
  · intro hm
    have ht := hookTrace_eq_depthEvents e L 0 hm
    simp only [Nat.cast_zero, add_zero] at ht
    rw [RecursiveVisitor.visit, handle_expression_Recorder e _ hm, ht]
    simp
  · intro hrec ev hev
    have := depthEvents_level_gt_of_isRecursive e L 0 hrec ev (hsafe ev hev)
    simpa using this

/-- C15 as amended, at the set `#{nil :a [] {}}` started at level 3. -/
theorem C15_depth_formula_witness :
    (Expression.Set [.Literal "nil", .Keyword "a", .Vector [], .Map []]).mapsEmpty = true
    ∧ RecursiveVisitor.visit Recorder
        (some (.Set [.Literal "nil", .Keyword "a", .Vector [], .Map []])) ⟨3, []⟩
        = .completed ⟨3,
            depthEvents 3 0 (.Set [.Literal "nil", .Keyword "a", .Vector [], .Map []])⟩
    ∧ depthEvents 3 0 (.Set [.Literal "nil", .Keyword "a", .Vector [], .Map []])
        = [⟨.before, .Set, .Set [.Literal "nil", .Keyword "a", .Vector [], .Map []], 4⟩,
           ⟨.before, .Keyword, .Keyword "a", 4⟩, ⟨.after, .Keyword, .Keyword "a", 4⟩,
           ⟨.before, .Vector, .Vector [], 5⟩, ⟨.after, .Vector, .Vector [], 5⟩,
           ⟨.before, .Map, .Map [], 5⟩, ⟨.after, .Map, .Map [], 5⟩,
           ⟨.after, .Set, .Set [.Literal "nil", .Keyword "a", .Vector [], .Map []], 4⟩] :=
  ⟨rfl,
    (C15_depth_formula (.Set [.Literal "nil", .Keyword "a", .Vector [], .Map []]) 3).2.1 rfl,
    rfl⟩

/-- C16 (defect): the traversal of a well-formed tree with a `Map` that has
children does not return and visits a child twice.  On the map `{k []}` started
at level 0 the key is visited once, the value twice, and the run then
dereferences `end()`.  For every visitor, tree and state the run returns exactly
when every `Map` node of the tree is empty. -/
theorem C16_termination_defect :
    (Expression.Map [.Symbol "k", .Vector []]).mapsEven = true
    ∧ RecursiveVisitor.visit Recorder (some (.Map [.Symbol "k", .Vector []])) ⟨0, []⟩
        = .pastEnd ⟨1,
            [⟨.before, .Map, .Map [.Symbol "k", .Vector []], 1⟩,
             ⟨.before, .Symbol, .Symbol "k", 1⟩, ⟨.after, .Symbol, .Symbol "k", 1⟩,
             ⟨.before, .Vector, .Vector [], 2⟩, ⟨.after, .Vector, .Vector [], 2⟩,
             ⟨.before, .Vector, .Vector [], 2⟩, ⟨.after, .Vector, .Vector [], 2⟩]⟩
    ∧ (∀ (σ : Type) (d : ExpressionVisitor σ) (e : Expression) (s : RecursiveVisitor σ),
        (RecursiveVisitor.visit d (some e) s).isCompleted = e.mapsEmpty) := by
  refine ⟨rfl, rfl, ?_⟩
  intro σ d e s
  cases hm : e.mapsEmpty with
  | true => exact (visit_isCompleted_iff d e s).2 hm
  | false =>
      obtain ⟨s1, h1⟩ := handle_expression_not_completes d e s hm
      simp [RecursiveVisitor.visit, h1, Outcome.isCompleted]

end punch.lang
